import Mathlib

/-!
Verification development for the panam log viewer.

The Go source is shallowly embedded: Go strings and byte slices are both
modelled as `List Char` (every code path in scope is byte-oriented; bytes are
identified with their Latin-1 code points, so the newline byte 10 is the
character `'\n'`).  Go library calls that sit outside the program itself
(the `encoding/json` text grammar, `time` zone loading/formatting and
`time.Parse`) are modelled as explicit function parameters, collected in the
`LogParser` structure; everything written in the repository itself is
translated definition by definition.  A Go `panic` is modelled by
`Except.error ()`.
-/

set_option autoImplicit false

/-- Go strings and byte slices, as lists of Latin-1 characters. -/
abbrev Str := List Char

/-- Result of Go `encoding/json` syntax-level decoding: the JSON value tree.
Numbers are modelled as integers (the only numeric fields the program decodes
are `int64`/`int`, for which Go rejects non-integral literals). -/
inductive Json where
  | null : Json
  | bool (b : Bool) : Json
  | num (n : Int) : Json
  | str (s : Str) : Json
  | arr (elems : List Json) : Json
  | obj (fields : List (Str × Json)) : Json
deriving Inhabited

/-- LogLevel from types.go; the Go zero value is `DEBUG` (iota 0). -/
inductive LogLevel where
  | DEBUG : LogLevel
  | INFO : LogLevel
  | WARN : LogLevel
  | ERROR : LogLevel
deriving DecidableEq, Repr

open LogLevel

/-- LogEntry from types.go.  `Metadata` (a Go `map[string]interface{}`) is
modelled as an association list in insertion order. -/
structure LogEntry where
  Timestamp : Str := []
  Level : LogLevel := DEBUG
  Message : Str := []
  Source : Str := []
  Raw : Str := []
  Metadata : List (Str × Json) := []

/-- OTLPLog from parser.go, the unmarshal target struct.  Absent fields keep
their Go zero values; `Option.none` models a nil interface/map. -/
structure OTLPLog where
  Timestamp : Int := 0
  SeverityNumber : Int := 0
  SeverityText : Str := []
  Body : Option Json := none
  Attributes : Option (List (Str × Json)) := none
  Resource : Option (List (Str × Json)) := none
  InstrumentationScope : Option (List (Str × Json)) := none

/-- ASCII upper-casing, modelling `strings.ToUpper` on the ASCII range
(the only comparisons made are against ASCII literals). -/
def goToUpper (s : Str) : Str := s.map Char.toUpper

/-- ASCII lower-casing, modelling `strings.ToLower` on the ASCII range. -/
def goToLower (s : Str) : Str := s.map Char.toLower

/-- strings.Contains: `sub` occurs as a contiguous substring of `s`. -/
def goContains : Str → Str → Bool
  | s, sub =>
    match s with
    | [] => sub.isEmpty
    | _ :: rest => sub.isPrefixOf s || goContains rest sub

/-- otlpSeverityToLevel from parser.go lines 226-252. -/
def otlpSeverityToLevel (severityNumber : Int) (severityText : Str) : LogLevel :=
  if severityNumber ≥ 17 then ERROR
  else if severityNumber ≥ 13 then WARN
  else if severityNumber ≥ 9 then INFO
  else if severityNumber ≥ 5 then DEBUG
  else
    let up := goToUpper severityText
    if up = "ERROR".data ∨ up = "FATAL".data then ERROR
    else if up = "WARN".data ∨ up = "WARNING".data then WARN
    else if up = "INFO".data then INFO
    else if up = "DEBUG".data ∨ up = "TRACE".data then DEBUG
    else INFO

/-- Characters matched by the `[0-9;]` class of `ansiRegex`. -/
def isAnsiParam (c : Char) : Bool := ('0' ≤ c ∧ c ≤ '9') ∨ c = ';'

/-- Characters matched by the `[a-zA-Z]` class of `ansiRegex`. -/
def isAsciiLetter (c : Char) : Bool := ('a' ≤ c ∧ c ≤ 'z') ∨ ('A' ≤ c ∧ c ≤ 'Z')

/-- Attempt to match `[0-9;]*[a-zA-Z]` at the head of the input, returning the
rest on success.  The two classes are disjoint so greedy matching is exact. -/
def ansiTail : Str → Option Str
  | [] => none
  | c :: rest =>
    if isAnsiParam c then ansiTail rest
    else if isAsciiLetter c then some rest
    else none

theorem ansiTail_length : ∀ (s t : Str), ansiTail s = some t → t.length ≤ s.length := by
  intro s
  induction s with
  | nil => intro t h; simp [ansiTail] at h
  | cons c rest ih =>
    intro t h
    simp only [ansiTail] at h
    by_cases hp : isAnsiParam c
    · simp [hp] at h
      have := ih t h
      simp; omega
    · by_cases hl : isAsciiLetter c
      · simp [hp, hl] at h
        subst h; simp
      · simp [hp, hl] at h

/-- StripANSI / `ansiRegex.ReplaceAllString(line, "")` from parser.go: one
left-to-right pass replacing non-overlapping matches of
`ESC \[ [0-9;]* [a-zA-Z]` by the empty string.  In the no-match case the
following `'['` cannot begin a match either, so the scan may resume after
it. -/
def stripANSI : Str → Str
  | [] => []
  | '\x1b' :: '[' :: rest2 =>
    match h : ansiTail rest2 with
    | some rest3 => stripANSI rest3
    | none => '\x1b' :: '[' :: stripANSI rest2
  | c :: rest => c :: stripANSI rest
termination_by s => s.length
decreasing_by
  · have := ansiTail_length rest2 rest3 h; simp at *; omega
  · simp; omega
  · simp

/-- True when the string begins with a full escape sequence
`ESC [ params letter`. -/
def startsAnsiSeq : Str → Bool
  | '\x1b' :: '[' :: rest2 => (ansiTail rest2).isSome
  | _ => false

/-- Decide whether a string contains a terminal escape sequence of the form
`ESC [ params letter` (the form named by spec property P4). -/
def containsAnsiSeq : Str → Bool
  | [] => false
  | s@(_ :: rest) => startsAnsiSeq s || containsAnsiSeq rest

/-- Go `int64` maximum, for `encoding/json` range checks on integer fields. -/
def int64Max : Int := 9223372036854775807

/-- Go `int64` minimum. -/
def int64Min : Int := -9223372036854775808

/-- Decode one JSON object field into the OTLPLog struct, as Go
`encoding/json` does: unknown keys are ignored, `null` leaves
integer/string fields unchanged and sets interface/map fields to nil, and a
type mismatch is an error (`none`).  Later duplicate keys overwrite earlier
ones, matching Go's field-by-field decoding. -/
def otlpSetField (o : OTLPLog) (kv : Str × Json) : Option OTLPLog :=
  if kv.fst = "timeUnixNano".data then
    match kv.snd with
    | Json.num n => if int64Min ≤ n ∧ n ≤ int64Max then some { o with Timestamp := n } else none
    | Json.null => some o
    | _ => none
  else if kv.fst = "severityNumber".data then
    match kv.snd with
    | Json.num n => if int64Min ≤ n ∧ n ≤ int64Max then some { o with SeverityNumber := n } else none
    | Json.null => some o
    | _ => none
  else if kv.fst = "severityText".data then
    match kv.snd with
    | Json.str s => some { o with SeverityText := s }
    | Json.null => some o
    | _ => none
  else if kv.fst = "body".data then
    match kv.snd with
    | Json.null => some { o with Body := none }
    | v => some { o with Body := some v }
  else if kv.fst = "attributes".data then
    match kv.snd with
    | Json.obj fs => some { o with Attributes := some fs }
    | Json.null => some { o with Attributes := none }
    | _ => none
  else if kv.fst = "resource".data then
    match kv.snd with
    | Json.obj fs => some { o with Resource := some fs }
    | Json.null => some { o with Resource := none }
    | _ => none
  else if kv.fst = "instrumentationScope".data then
    match kv.snd with
    | Json.obj fs => some { o with InstrumentationScope := some fs }
    | Json.null => some { o with InstrumentationScope := none }
    | _ => none
  else some o

/-- Go `json.Unmarshal(line, &otlpLog)` on an already-syntax-checked JSON
value: succeeds on `null` (leaving the zero struct) and on objects whose
recognized fields decode, and fails on any other top-level value. -/
def unmarshalOTLP : Json → Option OTLPLog
  | Json.null => some {}
  | Json.obj fs => fs.foldlM otlpSetField {}
  | _ => none

/-- Lookup in a Go map built from a decoded JSON object: the last occurrence
of a duplicated key wins. -/
def mapLookup (fs : List (Str × Json)) (k : Str) : Option Json :=
  (fs.reverse.find? (fun kv => kv.fst = k)).map (fun kv => kv.snd)

/-- Model of the parser plus the Go standard-library services it calls.
`jdec` is the `encoding/json` syntax layer applied to the input line
(`none` when the line is not valid JSON); `marshal` is `json.Marshal`;
`fmtNano` is `time.Unix(0, n).In(tz).Format("2006-01-02 15:04:05")`;
`now` is `time.Now().In(tz).Format("2006-01-02 15:04:05")` at parse time;
`tryFormats` is the inner loop of extractTimestamp (parser.go lines
208-221): try `time.Parse` with the five layouts on a captured substring and
render the first success in the configured zone. -/
structure LogParser where
  jdec : Str → Option Json
  marshal : Json → Str
  fmtNano : Int → Str
  now : Str
  tryFormats : Str → Option Str

/-- tryParseOTLP from parser.go lines 57-103.  The unchecked type assertion
`msg.(string)` on a non-string `body.stringValue` is a Go panic, modelled by
`Except.error ()`.  Returns `none` when the line does not unmarshal (the
caller then falls through to the next format tier). -/
def tryParseOTLP (p : LogParser) (line : Str) : Option (Except Unit LogEntry) :=
  match p.jdec line with
  | none => none
  | some j =>
    match unmarshalOTLP j with
    | none => none
    | some o =>
      let ts := if o.Timestamp > 0 then p.fmtNano o.Timestamp else p.now
      let lvl := otlpSeverityToLevel o.SeverityNumber o.SeverityText
      let msgE : Except Unit Str :=
        match o.Body with
        | some (Json.str s) => Except.ok s
        | some (Json.obj m) =>
          match mapLookup m ("stringValue".data) with
          | some (Json.str s) => Except.ok s
          | some _ => Except.error ()
          | none => Except.ok (p.marshal (Json.obj m))
        | _ => Except.ok []
      match msgE with
      | Except.error e => some (Except.error e)
      | Except.ok msg =>
        some (Except.ok
          { Timestamp := ts
            Level := lvl
            Message := msg
            Raw := line
            Metadata :=
              (match o.Attributes with
               | some fs => [("attributes".data, Json.obj fs)]
               | none => [])
              ++ (match o.Resource with
                  | some fs => [("resource".data, Json.obj fs)]
                  | none => [])
              ++ (match o.InstrumentationScope with
                  | some fs => [("instrumentationScope".data, Json.obj fs)]
                  | none => []) })

/-- Characters of the RE2 class `\s`, namely tab, newline, form feed,
carriage return and space. -/
def isWsRE (c : Char) : Bool :=
  c = ' ' ∨ c = '\t' ∨ c = '\n' ∨ c = '\x0c' ∨ c = '\r'

/-- Characters of the class `[0-9.]` in the Rails duration regex. -/
def isDurChar (c : Char) : Bool := ('0' ≤ c ∧ c ≤ '9') ∨ c = '.'

/-- Characters of the class `\d`. -/
def isDigitChar (c : Char) : Bool := '0' ≤ c ∧ c ≤ '9'

/-- Characters of the class `\w`. -/
def isWordChar (c : Char) : Bool := isDigitChar c || isAsciiLetter c || c = '_'

/-- Matcher for `railsRegex`, the anchored pattern
`^\s*\(([0-9.]+)ms\)\s+(.+)$` of parser.go line 110, returning the two
capture groups (duration, remainder).  Greedy classes here are followed by
disjoint literals, so maximal munch is exact; the only backtracking point is
`\s+` before `(.+)$`: the remainder is everything after the maximal
whitespace run, unless the tail is all whitespace, in which case `\s+` gives
one character back to `.+` (which cannot match a newline; `$` is end of
text). -/
def railsMatch (s : Str) : Option (Str × Str) :=
  match s.dropWhile (fun c => isWsRE c) with
  | '(' :: s2 =>
    let dur := s2.takeWhile (fun c => isDurChar c)
    let s3 := s2.dropWhile (fun c => isDurChar c)
    if dur.isEmpty then none
    else
      match s3 with
      | 'm' :: 's' :: ')' :: s4 =>
        let k := (s4.takeWhile (fun c => isWsRE c)).length
        if k = 0 then none
        else if k < s4.length then
          let r := s4.drop k
          if r.contains '\n' then none else some (dur, r)
        else
          match s4.getLast? with
          | some c => if c = '\n' ∨ s4.length < 2 then none else some (dur, [c])
          | none => none
      | _ => none
  | _ => none

/-- Matcher for `commonLogRegex`, the pattern
`^(\S+) - - \[([^\]]+)\] "([^"]*)" (\d+) (\d+)` of parser.go line 136
(anchored at the start, unanchored at the end), returning the five capture
groups (ip, bracketed timestamp, request, status, size). -/
def commonLogMatch (s : Str) : Option (Str × Str × Str × Str × Str) :=
  let ip := s.takeWhile (fun c => !isWsRE c)
  if ip.isEmpty then none
  else
    match s.drop ip.length with
    | ' ' :: '-' :: ' ' :: '-' :: ' ' :: '[' :: s2 =>
      let ts := s2.takeWhile (fun c => c ≠ ']')
      if ts.isEmpty then none
      else
        match s2.drop ts.length with
        | ']' :: ' ' :: '"' :: s4 =>
          let req := s4.takeWhile (fun c => c ≠ '"')
          match s4.drop req.length with
          | '"' :: ' ' :: s6 =>
            let status := s6.takeWhile (fun c => isDigitChar c)
            if status.isEmpty then none
            else
              match s6.drop status.length with
              | ' ' :: s8 =>
                let size := s8.takeWhile (fun c => isDigitChar c)
                if size.isEmpty then none else some (ip, ts, req, status, size)
              | _ => none
          | _ => none
        | _ => none
    | _ => none

/-- Numeric value of a digit string. -/
def digitsToNat (s : Str) : Nat :=
  s.foldl (fun acc c => acc * 10 + (c.toNat - '0'.toNat)) 0

/-- strconv.Atoi on a nonempty digit string: the value, unless it overflows
int64 (then Go reports an error and the caller keeps level INFO). -/
def atoiDigits (s : Str) : Option Int :=
  if (digitsToNat s : Int) ≤ int64Max then some (digitsToNat s) else none

/-- tryParseStructured from parser.go lines 105-164: the Rails timed format,
then the Apache/Nginx common log format, both matched against the
ANSI-stripped line. -/
def tryParseStructured (p : LogParser) (line : Str) : Option LogEntry :=
  let cleanLine := stripANSI line
  match railsMatch cleanLine with
  | some (dur, msg) =>
    let upperMsg := goToUpper msg
    let lvl :=
      if goContains upperMsg ("ERROR".data) then ERROR
      else if goContains upperMsg ("WARN".data) then WARN
      else if goContains upperMsg ("SQL".data) || goContains upperMsg ("SELECT".data)
          || goContains upperMsg ("INSERT".data) || goContains upperMsg ("UPDATE".data)
          || goContains upperMsg ("DELETE".data) then DEBUG
      else INFO
    some { Timestamp := p.now, Level := lvl, Message := msg, Raw := line,
           Metadata := [("duration_ms".data, Json.str dur)] }
  | none =>
    match commonLogMatch cleanLine with
    | some (ip, ts, req, status, size) =>
      let lvl :=
        match atoiDigits status with
        | some n => if n ≥ 500 then ERROR else if n ≥ 400 then WARN else INFO
        | none => INFO
      some { Timestamp := ts, Level := lvl,
             Message := ip ++ " ".data ++ req ++ " - Status: ".data ++ status,
             Raw := line,
             Metadata := [("ip".data, Json.str ip), ("request".data, Json.str req),
                          ("status_code".data, Json.str status),
                          ("response_size".data, Json.str size)] }
    | none => none

/-- Consume exactly `n` characters satisfying `p`. -/
def expectN (p : Char → Bool) : Nat → Str → Option Str
  | 0, s => some s
  | _ + 1, [] => none
  | n + 1, c :: rest => if p c then expectN p n rest else none

/-- Consume one literal character. -/
def expectC (c : Char) : Str → Option Str
  | [] => none
  | x :: rest => if x = c then some rest else none

/-- Match `\d{2}:\d{2}:\d{2}` (the clock part shared by all four timestamp
patterns). -/
def expectClock (s : Str) : Option Str := do
  let r1 ← expectN isDigitChar 2 s
  let r2 ← expectC ':' r1
  let r3 ← expectN isDigitChar 2 r2
  let r4 ← expectC ':' r3
  expectN isDigitChar 2 r4

/-- Match timestamp pattern 1, `\d{4}-\d{2}-\d{2} \d{2}:\d{2}:\d{2}`, at the
head of the input, returning the matched prefix. -/
def tryTs1 (s : Str) : Option Str := do
  let r1 ← expectN isDigitChar 4 s
  let r2 ← expectC '-' r1
  let r3 ← expectN isDigitChar 2 r2
  let r4 ← expectC '-' r3
  let r5 ← expectN isDigitChar 2 r4
  let r6 ← expectC ' ' r5
  let r7 ← expectClock r6
  some (s.take (s.length - r7.length))

/-- Match timestamp pattern 2, `\d{2}/\w{3}/\d{4}:\d{2}:\d{2}:\d{2}`, at the
head of the input. -/
def tryTs2 (s : Str) : Option Str := do
  let r1 ← expectN isDigitChar 2 s
  let r2 ← expectC '/' r1
  let r3 ← expectN isWordChar 3 r2
  let r4 ← expectC '/' r3
  let r5 ← expectN isDigitChar 4 r4
  let r6 ← expectC ':' r5
  let r7 ← expectClock r6
  some (s.take (s.length - r7.length))

/-- Match timestamp pattern 3, `\w{3} \d{1,2} \d{2}:\d{2}:\d{2}`, at the head
of the input.  `\d{1,2}` is greedy with a following space from a disjoint
class, so it matches exactly the (1- or 2-long) maximal digit run. -/
def tryTs3 (s : Str) : Option Str := do
  let r1 ← expectN isWordChar 3 s
  let r2 ← expectC ' ' r1
  let day := r2.takeWhile (fun c => isDigitChar c)
  if day.length = 0 ∨ day.length > 2 then none
  else do
    let r3 ← expectC ' ' (r2.drop day.length)
    let r4 ← expectClock r3
    some (s.take (s.length - r4.length))

/-- Match the zone suffix `Z|[+-]\d{2}:\d{2}` of the ISO pattern. -/
def expectZone : Str → Option Str
  | 'Z' :: rest => some rest
  | '+' :: rest => do
    let r1 ← expectN isDigitChar 2 rest
    let r2 ← expectC ':' r1
    expectN isDigitChar 2 r2
  | '-' :: rest => do
    let r1 ← expectN isDigitChar 2 rest
    let r2 ← expectC ':' r1
    expectN isDigitChar 2 r2
  | _ => none

/-- Match timestamp pattern 4, ISO 8601
`\d{4}-\d{2}-\d{2}T\d{2}:\d{2}:\d{2}(?:\.\d+)?(?:Z|[+-]\d{2}:\d{2})`, at the
head of the input. -/
def tryTs4 (s : Str) : Option Str := do
  let r1 ← expectN isDigitChar 4 s
  let r2 ← expectC '-' r1
  let r3 ← expectN isDigitChar 2 r2
  let r4 ← expectC '-' r3
  let r5 ← expectN isDigitChar 2 r4
  let r6 ← expectC 'T' r5
  let r7 ← expectClock r6
  let r8 :=
    match r7 with
    | '.' :: r7a =>
      let frac := r7a.takeWhile (fun c => isDigitChar c)
      if frac.isEmpty then none else some (r7a.drop frac.length)
    | _ => none
  match r8 with
  | some r9 => do
    let r10 ← expectZone r9
    some (s.take (s.length - r10.length))
  | none => do
    let r10 ← expectZone r7
    some (s.take (s.length - r10.length))

/-- Leftmost unanchored search: try the head matcher at each successive
position and return the first capture. -/
def scanFirst (tryAt : Str → Option Str) : Str → Option Str
  | [] => none
  | s@(_ :: rest) =>
    match tryAt s with
    | some cap => some cap
    | none => scanFirst tryAt rest

/-- extractTimestamp from parser.go lines 195-224: for each of the four
patterns in order, find its leftmost occurrence in the line; if the captured
substring parses under one of the five `time.Parse` layouts (`p.tryFormats`),
return the rendered canonical timestamp, else move to the next pattern. -/
def extractTimestamp (p : LogParser) (line : Str) : Option Str :=
  ((scanFirst tryTs1 line).bind p.tryFormats)
    <|> ((scanFirst tryTs2 line).bind p.tryFormats)
    <|> ((scanFirst tryTs3 line).bind p.tryFormats)
    <|> ((scanFirst tryTs4 line).bind p.tryFormats)

/-- parsePlainText from parser.go lines 166-193. -/
def parsePlainText (p : LogParser) (line : Str) (source : Str) : LogEntry :=
  let cleanLine := stripANSI line
  let upperLine := goToUpper cleanLine
  let lvl :=
    if goContains upperLine ("ERROR".data) || goContains upperLine ("FATAL".data) then ERROR
    else if goContains upperLine ("WARN".data) || goContains upperLine ("WARNING".data) then WARN
    else if goContains upperLine ("DEBUG".data) || goContains upperLine ("TRACE".data) then DEBUG
    else INFO
  let ts :=
    match extractTimestamp p cleanLine with
    | some t => t
    | none => p.now
  { Timestamp := ts, Level := lvl, Message := cleanLine, Raw := line,
    Source := source, Metadata := [] }

/-- ParseLogLine from parser.go lines 40-55: OTLP JSON, then structured,
then plain text; a panic in a tier propagates. -/
def ParseLogLine (p : LogParser) (line : Str) (source : Str) : Except Unit LogEntry :=
  match tryParseOTLP p line with
  | some (Except.error e) => Except.error e
  | some (Except.ok entry) => Except.ok { entry with Source := source }
  | none =>
    match tryParseStructured p line with
    | some entry => Except.ok { entry with Source := source }
    | none => Except.ok (parsePlainText p line source)

/-- Taking the OTLP branch of ParseLogLine (not falling through to the
structured or plain-text tiers). -/
def otlpClassified (p : LogParser) (line : Str) : Bool :=
  (tryParseOTLP p line).isSome

/-- The seven recognized OTLP field names. -/
def otlpRecognizedKeys : List Str :=
  ["timeUnixNano".data, "severityNumber".data, "severityText".data, "body".data,
   "attributes".data, "resource".data, "instrumentationScope".data]

/-- Spec-side classifier, following the spec's words for comparison with the
code: the line is valid JSON with at least one recognized field among the
seven (fields exist only on objects). -/
def specOTLPClassified (p : LogParser) (line : Str) : Bool :=
  match p.jdec line with
  | some (Json.obj fs) => fs.any (fun kv => otlpRecognizedKeys.contains kv.fst)
  | _ => false

/-- FastLineIndex from fast_indexer.go: byte offset and length (newline
included) of one line. -/
structure FastLineIndex where
  Offset : Nat
  Length : Nat
deriving DecidableEq, Repr

/-- Scanning loop of IndexFileUltraFast (fast_indexer.go lines 72-103).  The
Go code reads the file in 256 KiB chunks and examines each byte once at
absolute position `offset + i`; the loop is equivalent to this byte-at-a-time
scan.  `pos` is the number of bytes consumed, `ls` the start of the current
line; at EOF a final unterminated-line entry is pushed when bytes remain. -/
def indexLoop : List Char → Nat → Nat → List FastLineIndex
  | [], pos, ls => if ls < pos then [⟨ls, pos - ls⟩] else []
  | b :: rest, pos, ls =>
    if b = '\n' then ⟨ls, pos - ls + 1⟩ :: indexLoop rest (pos + 1) (pos + 1)
    else indexLoop rest (pos + 1) ls

/-- IndexFileUltraFast from fast_indexer.go lines 56-112, as a function of
the file bytes. -/
def IndexFileUltraFast (file : List Char) : List FastLineIndex :=
  indexLoop file 0 0

/-- Split off the first line chunk: everything up to and including the first
newline (or everything, when there is none), plus the remainder. -/
def splitAfterNl : List Char → List Char × List Char
  | [] => ([], [])
  | b :: rest =>
    if b = '\n' then ([b], rest)
    else
      let p := splitAfterNl rest
      (b :: p.1, p.2)

theorem splitAfterNl_snd_le : ∀ (s : Str), (splitAfterNl s).2.length ≤ s.length := by
  intro s
  induction s with
  | nil => simp [splitAfterNl]
  | cons b rest ih =>
    simp only [splitAfterNl]
    by_cases hb : b = '\n'
    · simp [hb]
    · simp [hb]; omega

theorem splitAfterNl_snd_lt (b : Char) (rest : Str) :
    (splitAfterNl (b :: rest)).2.length < (b :: rest).length := by
  have h1 := splitAfterNl_snd_le rest
  simp only [splitAfterNl]
  by_cases hb : b = '\n' <;> simp [hb] <;> omega

/-- The line chunks of a byte sequence: each chunk is a maximal newline-free
run together with its terminating newline, the final chunk possibly
unterminated.  Proof-side companion of `indexLoop`. -/
def lineChunks : List Char → List (List Char)
  | [] => []
  | b :: rest => (splitAfterNl (b :: rest)).1 :: lineChunks (splitAfterNl (b :: rest)).2
termination_by s => s.length
decreasing_by
  exact splitAfterNl_snd_lt b rest

/-- Offset-table segment generated by a chunk list starting at offset `o`. -/
def chunksToIndexFrom (o : Nat) : List (List Char) → List FastLineIndex
  | [] => []
  | c :: cs => ⟨o, c.length⟩ :: chunksToIndexFrom (o + c.length) cs

/-- Adjacency invariant of an offset table: the first entry (if any) starts
at `o` and each entry starts where the previous one ends. -/
def chainedFrom (o : Nat) : List FastLineIndex → Prop
  | [] => True
  | e :: rest => e.Offset = o ∧ chainedFrom (e.Offset + e.Length) rest

/-- Total byte length covered by an offset table. -/
def sumLengths (tbl : List FastLineIndex) : Nat :=
  (tbl.map (fun e => e.Length)).sum

/-- Positional read: `file.ReadAt(buffer, off)` for a `len`-byte buffer. -/
def readAt (file : List Char) (off len : Nat) : List Char :=
  (file.drop off).take len

/-- Strip a single trailing newline, as the per-index path of GetLineRange
does (fast_indexer.go lines 210-212). -/
def stripTrailingNl (l : List Char) : List Char :=
  if l.getLast? = some '\n' then l.dropLast else l

/-- The raw line the per-index path reads for one offset entry. -/
def perIndexLine (file : List Char) (e : FastLineIndex) : List Char :=
  stripTrailingNl (readAt file e.Offset e.Length)

/-- Per-index (non-consecutive) branch of GetLineRange (fast_indexer.go
lines 199-239): one positional read per index, skipping indices outside the
table.  Cache insertion and eviction mutate only the cache, not the returned
entries, and are omitted. -/
def perIndexFetch (p : LogParser) (src : Str) (file : List Char)
    (tbl : List FastLineIndex) : List Nat → List (Except Unit LogEntry)
  | [] => []
  | i :: rest =>
    match tbl.get? i with
    | some e => ParseLogLine p (perIndexLine file e) src :: perIndexFetch p src file tbl rest
    | none => perIndexFetch p src file tbl rest

/-- bufio.MaxScanTokenSize: a `bufio.Scanner` with default buffer fails with
ErrTooLong on any token of 65536 bytes or more. -/
def bufioMaxTokenSize : Nat := 65536

/-- Strip one trailing carriage return, as `bufio.ScanLines` does to every
token it returns. -/
def dropCR (l : List Char) : List Char :=
  if l.getLast? = some '\r' then l.dropLast else l

/-- Token stream of a `bufio.Scanner` with the `ScanLines` split function and
the default buffer: tokens are newline-separated (newline consumed, one
trailing `\r` stripped), the final unterminated token is returned at EOF, and
a token of `bufioMaxTokenSize` bytes or more stops the scanner (ErrTooLong),
dropping it and everything after it. -/
def scannerTokens : List Char → List (List Char)
  | [] => []
  | b :: bs =>
    let tok := (b :: bs).takeWhile (fun c => c ≠ '\n')
    if bufioMaxTokenSize ≤ tok.length then []
    else if tok.length = (b :: bs).length then [dropCR tok]
    else dropCR tok :: scannerTokens ((b :: bs).drop (tok.length + 1))
termination_by bs => bs.length
decreasing_by
  simp only [List.length_drop, List.length_cons]
  omega

/-- Batched-contiguous branch of GetLineRange (fast_indexer.go lines
162-198): one positional read covering the whole consecutive index range,
split by a `bufio.Scanner`; each requested index consumes one scan, indices
left over after the scanner stops are skipped. -/
def batchedFetch (p : LogParser) (src : Str) (file : List Char)
    (tbl : List FastLineIndex) (idxs : List Nat) : List (Except Unit LogEntry) :=
  match idxs.head?, idxs.getLast? with
  | some first, some last =>
    match tbl.get? first, tbl.get? last with
    | some ef, some el =>
      let buffer := readAt file ef.Offset (el.Offset + el.Length - ef.Offset)
      ((scannerTokens buffer).take idxs.length).map (fun line => ParseLogLine p line src)
    | _, _ => []
  | _, _ => []

/-- GetLineRange from fast_indexer.go lines 115-243.  `cache` is the parse
cache (a read of the shared map); the returned list reproduces the source's
append order: cache hits first (in index order), then the uncached entries.
Cache writes and eviction affect only the cache state and are omitted. -/
def GetLineRange (p : LogParser) (src : Str) (file : List Char)
    (tbl : List FastLineIndex) (cache : Nat → Option LogEntry)
    (start0 end0 : Int) : List (Except Unit LogEntry) :=
  let start1 : Int := if start0 < 0 then 0 else start0
  let total : Nat := tbl.length
  let end1 : Int := if end0 > total then (total : Int) else end0
  if start1 ≥ end1 then []
  else
    let start := start1.toNat
    let endN := end1.toNat
    let idxList := List.range' start (endN - start)
    let cachedEntries := idxList.filterMap (fun i => (cache i).map Except.ok)
    let uncached := idxList.filter (fun i => (cache i).isNone)
    if uncached.isEmpty then cachedEntries
    else if tbl.length = 0 then cachedEntries
    else if 1 < uncached.length ∧
        uncached.getLast?.getD 0 - uncached.head?.getD 0 = uncached.length - 1 then
      cachedEntries ++ batchedFetch p src file tbl uncached
    else cachedEntries ++ perIndexFetch p src file tbl uncached

/-- CircularBuffer from types.go; the fixed-size backing slice is modelled as
a total function from slot to entry. -/
structure CircularBuffer where
  entries : Nat → LogEntry
  head : Nat
  tail : Nat
  size : Nat
  maxSize : Nat

/-- NewCircularBuffer from types.go lines 72-77: zero-valued slots. -/
def NewCircularBuffer (maxSize : Nat) : CircularBuffer :=
  { entries := fun _ => {}, head := 0, tail := 0, size := 0, maxSize := maxSize }

/-- CircularBuffer.Add from types.go lines 79-88. -/
def CircularBuffer.Add (cb : CircularBuffer) (entry : LogEntry) : CircularBuffer :=
  let entries := fun s => if s = cb.head then entry else cb.entries s
  let head := (cb.head + 1) % cb.maxSize
  if cb.size < cb.maxSize then
    { cb with entries := entries, head := head, size := cb.size + 1 }
  else
    { cb with entries := entries, head := head, tail := (cb.tail + 1) % cb.maxSize }

/-- CircularBuffer.GetAll from types.go lines 90-101. -/
def CircularBuffer.GetAll (cb : CircularBuffer) : List LogEntry :=
  if cb.size = 0 then []
  else (List.range cb.size).map (fun i => cb.entries ((cb.tail + i) % cb.maxSize))

/-- Fold a sequence of Add operations over a buffer. -/
def addAll (cb : CircularBuffer) (xs : List LogEntry) : CircularBuffer :=
  xs.foldl CircularBuffer.Add cb

/-- Filter inputs of UnifiedModel: the level toggles and the raw text of the
include/exclude inputs (unified_model.go fields). -/
structure FilterState where
  showDebug : Bool
  showInfo : Bool
  showWarn : Bool
  showError : Bool
  includeValue : Str
  excludeValue : Str

/-- shouldShowLevel from unified_model.go lines 801-814. -/
def shouldShowLevel (st : FilterState) : LogLevel → Bool
  | ERROR => st.showError
  | WARN => st.showWarn
  | INFO => st.showInfo
  | DEBUG => st.showDebug

/-- strings.Split on a comma separator. -/
def splitComma : Str → List Str
  | [] => [[]]
  | c :: rest =>
    if c = ',' then [] :: splitComma rest
    else
      match splitComma rest with
      | g :: gs => (c :: g) :: gs
      | [] => [[c]]

/-- Whitespace recognized by strings.TrimSpace (ASCII range; the inputs in
scope are ASCII). -/
def isGoSpace (c : Char) : Bool :=
  c = ' ' ∨ c = '\t' ∨ c = '\n' ∨ c = '\x0b' ∨ c = '\x0c' ∨ c = '\r'

/-- strings.TrimSpace. -/
def trimSpace (s : Str) : Str :=
  ((s.dropWhile (fun c => isGoSpace c)).reverse.dropWhile (fun c => isGoSpace c)).reverse

/-- matchesPattern from unified_model.go lines 816-835, substring mode
(`useRegex = false`).  The regex mode delegates to Go's `regexp` engine;
the filter theorems below are stated for an arbitrary matcher, of which this
is one instance. -/
def matchesPatternSubstr (caseSensitive : Bool) (text pattern : Str) : Bool :=
  if caseSensitive then goContains text pattern
  else goContains (goToLower text) (goToLower pattern)

/-- Loop body of applyFilters (unified_model.go lines 744-783) over the
record sequence: `i` is the current line index, `fLen` the current length of
`filteredIndices` (the position the next kept record receives); returns the
pair (filteredIndices, matchedIndices) built from the remaining records.
`matchP` abstracts `m.matchesPattern`. -/
def applyFiltersLoop (matchP : Str → Str → Bool) (st : FilterState)
    (incPats excPats : List Str) : List LogEntry → Nat → Nat → List Nat × List Nat
  | [], _, _ => ([], [])
  | e :: rest, i, fLen =>
    if shouldShowLevel st e.Level = false then
      applyFiltersLoop matchP st incPats excPats rest (i + 1) fLen
    else if excPats.any (fun pat => !pat.isEmpty && matchP e.Message pat) then
      applyFiltersLoop matchP st incPats excPats rest (i + 1) fLen
    else if !st.includeValue.isEmpty then
      if incPats.any (fun pat => !pat.isEmpty && matchP e.Message pat) then
        let rec1 := applyFiltersLoop matchP st incPats excPats rest (i + 1) (fLen + 1)
        (i :: rec1.1, fLen :: rec1.2)
      else
        applyFiltersLoop matchP st incPats excPats rest (i + 1) fLen
    else
      let rec1 := applyFiltersLoop matchP st incPats excPats rest (i + 1) (fLen + 1)
      (i :: rec1.1, rec1.2)

/-- applyFilters from unified_model.go lines 724-793, as a function of the
record sequence: split the raw include/exclude strings on commas, trim each
pattern, then keep records by level, exclusion and (when the include input is
non-empty) inclusion; `matchedIndices` records positions in `filteredIndices`
as they are produced.  Viewport bookkeeping after the loop does not affect
the two lists. -/
def applyFilters (matchP : Str → Str → Bool) (st : FilterState)
    (entries : List LogEntry) : List Nat × List Nat :=
  applyFiltersLoop matchP st ((splitComma st.includeValue).map trimSpace)
    ((splitComma st.excludeValue).map trimSpace) entries 0 0

/-- The per-record keep decision implicit in applyFilters: level enabled, no
non-empty exclude pattern matches, and when the include input is non-empty
some non-empty include pattern matches. -/
def keepEntry (matchP : Str → Str → Bool) (st : FilterState) (e : LogEntry) : Bool :=
  shouldShowLevel st e.Level &&
  !((splitComma st.excludeValue).map trimSpace).any (fun pat => !pat.isEmpty && matchP e.Message pat) &&
  (st.includeValue.isEmpty ||
    ((splitComma st.includeValue).map trimSpace).any (fun pat => !pat.isEmpty && matchP e.Message pat))

/-- Offset-table segment for a chunk list preceded by `p` pending bytes of an
unfinished line starting at `ls` (proof-side generalization of
`chunksToIndexFrom` used to describe `indexLoop` mid-line). -/
def chunksWithPending (ls p : Nat) : List (List Char) → List FastLineIndex
  | [] => if 0 < p then [⟨ls, p⟩] else []
  | c :: cs => ⟨ls, p + c.length⟩ :: chunksToIndexFrom (ls + p + c.length) cs

/-- Spec-side severity-text fallback, following the claim's words: map
severityText case-insensitively, anything unrecognized to Info. -/
def severityTextLevel (t : Str) : LogLevel :=
  let up := goToUpper t
  if up = "ERROR".data ∨ up = "FATAL".data then ERROR
  else if up = "WARN".data ∨ up = "WARNING".data then WARN
  else if up = "INFO".data then INFO
  else if up = "DEBUG".data ∨ up = "TRACE".data then DEBUG
  else INFO

/-- Type compatibility of one JSON object field with the OTLPLog struct:
exactly the condition under which `otlpSetField` succeeds, branch for
branch. -/
def otlpFieldOk (kv : Str × Json) : Bool :=
  if kv.fst = "timeUnixNano".data then
    match kv.snd with
    | Json.num n => decide (int64Min ≤ n ∧ n ≤ int64Max)
    | Json.null => true
    | _ => false
  else if kv.fst = "severityNumber".data then
    match kv.snd with
    | Json.num n => decide (int64Min ≤ n ∧ n ≤ int64Max)
    | Json.null => true
    | _ => false
  else if kv.fst = "severityText".data then
    match kv.snd with
    | Json.str _ => true
    | Json.null => true
    | _ => false
  else if kv.fst = "body".data then true
  else if kv.fst = "attributes".data then
    match kv.snd with
    | Json.obj _ => true
    | Json.null => true
    | _ => false
  else if kv.fst = "resource".data then
    match kv.snd with
    | Json.obj _ => true
    | Json.null => true
    | _ => false
  else if kv.fst = "instrumentationScope".data then
    match kv.snd with
    | Json.obj _ => true
    | Json.null => true
    | _ => false
  else true

theorem lineChunks_cons (b : Char) (rest : Str) :
    lineChunks (b :: rest)
      = (splitAfterNl (b :: rest)).1 :: lineChunks (splitAfterNl (b :: rest)).2 := by
  rw [lineChunks]

theorem chunksWithPending_zero (o : Nat) (cs : List (List Char)) :
    chunksWithPending o 0 cs = chunksToIndexFrom o cs := by
  cases cs with
  | nil => simp [chunksWithPending, chunksToIndexFrom]
  | cons c cs => simp [chunksWithPending, chunksToIndexFrom]

theorem indexLoop_eq_chunks :
    ∀ (bs : Str) (ls p : Nat), indexLoop bs (ls + p) ls = chunksWithPending ls p (lineChunks bs) := by
  intro bs
  induction bs with
  | nil =>
    intro ls p
    simp only [indexLoop, lineChunks, chunksWithPending]
    have h1 : ls + p - ls = p := by omega
    by_cases hp : 0 < p
    · rw [if_pos (by omega), if_pos hp, h1]
    · rw [if_neg (by omega), if_neg hp]
  | cons b rest ih =>
    intro ls p
    by_cases hb : b = '\n'
    · subst hb
      rw [lineChunks_cons]
      simp only [indexLoop, if_pos rfl, splitAfterNl, if_pos rfl]
      have h1 : ls + p + 1 = (ls + p + 1) + 0 := by omega
      rw [show ls + p - ls + 1 = p + 1 by omega]
      rw [h1, ih (ls + p + 1) 0, chunksWithPending_zero]
      simp only [chunksWithPending]
      rw [show ls + p + 1 = ls + (p + 1) by omega]
      congr 1
    · rw [lineChunks_cons]
      simp only [indexLoop, if_neg hb, splitAfterNl, if_neg hb]
      rw [show ls + p + 1 = ls + (p + 1) by omega, ih ls (p + 1)]
      cases hr : rest with
      | nil =>
        simp only [lineChunks, splitAfterNl, chunksWithPending, chunksToIndexFrom]
        simp
      | cons x xs =>
        subst hr
        rw [lineChunks_cons]
        simp only [chunksWithPending, List.length_cons]
        have hA : p + 1 + (splitAfterNl (x :: xs)).1.length
            = p + ((splitAfterNl (x :: xs)).1.length + 1) := by omega
        have hB : ls + (p + 1) + (splitAfterNl (x :: xs)).1.length
            = ls + p + ((splitAfterNl (x :: xs)).1.length + 1) := by omega
        rw [hA, hB]

theorem IndexFileUltraFast_eq_chunks (file : Str) :
    IndexFileUltraFast file = chunksToIndexFrom 0 (lineChunks file) := by
  have h := indexLoop_eq_chunks file 0 0
  simpa [IndexFileUltraFast, chunksWithPending_zero] using h

theorem chainedFrom_chunksToIndexFrom :
    ∀ (cs : List (List Char)) (o : Nat), chainedFrom o (chunksToIndexFrom o cs) := by
  intro cs
  induction cs with
  | nil => intro o; simp [chunksToIndexFrom, chainedFrom]
  | cons c cs ih =>
    intro o
    exact ⟨rfl, ih (o + c.length)⟩

theorem sumLengths_chunksToIndexFrom :
    ∀ (cs : List (List Char)) (o : Nat),
      sumLengths (chunksToIndexFrom o cs) = (cs.map List.length).sum := by
  intro cs
  induction cs with
  | nil => intro o; simp [chunksToIndexFrom, sumLengths]
  | cons c cs ih =>
    intro o
    simp only [chunksToIndexFrom, sumLengths, List.map_cons, List.sum_cons]
    have := ih (o + c.length)
    simp only [sumLengths] at this
    rw [this]

theorem splitAfterNl_append : ∀ (s : Str), (splitAfterNl s).1 ++ (splitAfterNl s).2 = s := by
  intro s
  induction s with
  | nil => simp [splitAfterNl]
  | cons b rest ih =>
    simp only [splitAfterNl]
    by_cases hb : b = '\n'
    · simp [hb]
    · simp [hb, ih]

theorem lineChunks_flatten_aux :
    ∀ (n : Nat) (s : Str), s.length ≤ n → (lineChunks s).flatten = s := by
  intro n
  induction n with
  | zero =>
    intro s h
    cases s with
    | nil => simp [lineChunks]
    | cons b rest => simp at h
  | succ n ih =>
    intro s h
    cases s with
    | nil => simp [lineChunks]
    | cons b rest =>
      rw [lineChunks_cons]
      simp only [List.flatten_cons]
      have hlt := splitAfterNl_snd_lt b rest
      rw [ih _ (by simp at h hlt ⊢; omega)]
      exact splitAfterNl_append (b :: rest)

theorem lineChunks_flatten (s : Str) : (lineChunks s).flatten = s :=
  lineChunks_flatten_aux s.length s le_rfl

theorem chainedFrom_head :
    ∀ (l : List FastLineIndex) (o : Nat) (e : FastLineIndex),
      chainedFrom o l → l.get? 0 = some e → e.Offset = o := by
  intro l o e h he
  cases l with
  | nil => simp at he
  | cons a rest =>
    simp at he
    subst he
    exact h.1

theorem chainedFrom_adjacent :
    ∀ (l : List FastLineIndex) (o : Nat), chainedFrom o l →
      ∀ (i : Nat) (e e' : FastLineIndex), l.get? i = some e → l.get? (i + 1) = some e' →
        e'.Offset = e.Offset + e.Length := by
  intro l
  induction l with
  | nil => intro o _ i e e' he _; simp at he
  | cons a rest ih =>
    intro o h i e e' he he'
    cases i with
    | zero =>
      simp at he
      rw [← he]
      exact chainedFrom_head rest (a.Offset + a.Length) e' h.2 (by simpa using he')
    | succ i =>
      exact ih (a.Offset + a.Length) h.2 i e e' (by simpa using he) (by simpa using he')

/-- C3: after indexing, the offset table starts at offset 0, each entry ends
where the next begins, the lengths sum to the file's byte length, and an
empty file yields an empty index. -/
theorem C3_index_table_invariants :
    (∀ file : Str,
        chainedFrom 0 (IndexFileUltraFast file)
          ∧ sumLengths (IndexFileUltraFast file) = file.length
          ∧ (∀ e : FastLineIndex, (IndexFileUltraFast file).get? 0 = some e → e.Offset = 0)
          ∧ (∀ (i : Nat) (e e' : FastLineIndex),
              (IndexFileUltraFast file).get? i = some e →
              (IndexFileUltraFast file).get? (i + 1) = some e' →
              e'.Offset = e.Offset + e.Length))
      ∧ IndexFileUltraFast [] = [] := by
  constructor
  · intro file
    have hch : chainedFrom 0 (IndexFileUltraFast file) := by
      rw [IndexFileUltraFast_eq_chunks]
      exact chainedFrom_chunksToIndexFrom _ 0
    refine ⟨hch, ?_, ?_, ?_⟩
    · rw [IndexFileUltraFast_eq_chunks, sumLengths_chunksToIndexFrom, ← List.length_flatten,
        lineChunks_flatten]
    · intro e he
      exact chainedFrom_head _ 0 e hch he
    · intro i e e' he he'
      exact chainedFrom_adjacent _ 0 hch i e e' he he'
  · rfl

theorem applyFiltersLoop_spec (matchP : Str → Str → Bool) (st : FilterState) :
    ∀ (es : List LogEntry) (i fLen : Nat),
      applyFiltersLoop matchP st ((splitComma st.includeValue).map trimSpace)
          ((splitComma st.excludeValue).map trimSpace) es i fLen
        = (((es.enumFrom i).filter (fun pr => keepEntry matchP st pr.2)).map Prod.fst,
           if st.includeValue.isEmpty then []
           else List.range' fLen (es.filter (keepEntry matchP st)).length) := by
  intro es
  induction es with
  | nil =>
    intro i fLen
    simp [applyFiltersLoop, List.enumFrom]
  | cons e rest ih =>
    intro i fLen
    by_cases h1 : shouldShowLevel st e.Level
    · by_cases h2 : ((splitComma st.excludeValue).map trimSpace).any
          (fun pat => !pat.isEmpty && matchP e.Message pat)
      · have hk : keepEntry matchP st e = false := by
          simp [keepEntry, h1, h2]
        simp only [applyFiltersLoop, h1, h2, if_true, if_false, Bool.not_true,
          List.enumFrom, List.filter_cons, hk]
        rw [ih (i + 1) fLen]
        simp
      · by_cases h3 : st.includeValue.isEmpty
        · have hk : keepEntry matchP st e = true := by
            simp [keepEntry, h1, h2, h3]
          simp only [applyFiltersLoop, h1, h2, h3]
          simp only [Bool.not_true, Bool.not_false, if_false, if_true]
          rw [ih (i + 1) (fLen + 1)]
          simp [List.enumFrom, List.filter_cons, hk, h3]
        · by_cases h4 : ((splitComma st.includeValue).map trimSpace).any
              (fun pat => !pat.isEmpty && matchP e.Message pat)
          · have hk : keepEntry matchP st e = true := by
              simp [keepEntry, h1, h2, h3, h4]
            simp only [applyFiltersLoop, h1, h2, h3, h4]
            simp only [Bool.not_true, Bool.not_false, if_false, if_true]
            rw [ih (i + 1) (fLen + 1)]
            simp [List.enumFrom, List.filter_cons, hk, h3, List.range'_succ]
          · have hk : keepEntry matchP st e = false := by
              simp [keepEntry, h1, h2, h3, h4]
            simp only [applyFiltersLoop, h1, h2, h3, h4]
            simp only [Bool.not_true, Bool.not_false, if_false, if_true]
            rw [ih (i + 1) fLen]
            simp [List.enumFrom, List.filter_cons, hk, h3]
    · have hk : keepEntry matchP st e = false := by
        simp [keepEntry, h1]
      have h1' : shouldShowLevel st e.Level = false := by
        simpa using h1
      simp only [applyFiltersLoop, h1', if_true]
      rw [ih (i + 1) fLen]
      simp [List.enumFrom, List.filter_cons, hk]

theorem applyFilters_spec (matchP : Str → Str → Bool) (st : FilterState) (es : List LogEntry) :
    applyFilters matchP st es
      = (((es.enumFrom 0).filter (fun pr => keepEntry matchP st pr.2)).map Prod.fst,
         if st.includeValue.isEmpty then []
         else List.range (es.filter (keepEntry matchP st)).length) := by
  rw [applyFilters, applyFiltersLoop_spec, List.range_eq_range']

theorem get?_of_mem_enumFrom :
    ∀ (es : List LogEntry) (k : Nat) (pr : Nat × LogEntry), pr ∈ es.enumFrom k →
      k ≤ pr.1 ∧ es.get? (pr.1 - k) = some pr.2 := by
  intro es
  induction es with
  | nil => intro k pr h; simp [List.enumFrom] at h
  | cons e rest ih =>
    intro k pr h
    simp only [List.enumFrom, List.mem_cons] at h
    cases h with
    | inl h =>
      subst h
      simp
    | inr h =>
      have := ih (k + 1) pr h
      refine ⟨by omega, ?_⟩
      have hgt : pr.1 - k = (pr.1 - (k + 1)) + 1 := by omega
      rw [hgt]
      simpa using this.2

theorem mem_enumFrom_of_get? :
    ∀ (es : List LogEntry) (k j : Nat) (e : LogEntry), es.get? j = some e →
      (k + j, e) ∈ es.enumFrom k := by
  intro es
  induction es with
  | nil => intro k j e h; simp at h
  | cons x rest ih =>
    intro k j e h
    cases j with
    | zero =>
      simp at h
      subst h
      simp [List.enumFrom]
    | succ j =>
      simp only [List.get?] at h
      have := ih (k + 1) j e h
      simp only [List.enumFrom, List.mem_cons]
      right
      have harith : k + (j + 1) = (k + 1) + j := by omega
      rw [harith]
      exact this

theorem applyFilters_mem_iff (matchP : Str → Str → Bool) (st : FilterState)
    (es : List LogEntry) (i : Nat) (e : LogEntry) (hget : es.get? i = some e) :
    i ∈ (applyFilters matchP st es).1 ↔ keepEntry matchP st e = true := by
  rw [applyFilters_spec]
  constructor
  · intro hmem
    simp only [List.mem_map, List.mem_filter] at hmem
    obtain ⟨pr, ⟨hpr, hkeep⟩, hfst⟩ := hmem
    have h2 := get?_of_mem_enumFrom es 0 pr hpr
    rw [Nat.sub_zero, hfst, hget] at h2
    have : pr.2 = e := by
      have h3 := h2.2
      injection h3 with h4
      exact h4.symm
    rw [this] at hkeep
    exact hkeep
  · intro hkeep
    simp only [List.mem_map, List.mem_filter]
    refine ⟨(i, e), ⟨?_, hkeep⟩, rfl⟩
    have := mem_enumFrom_of_get? es 0 i e hget
    simpa using this

/-- C1 (amended): include patterns do determine membership in FilteredView.
A record's line index is in `filteredIndices` after a rebuild iff its level
is enabled, no non-empty exclude pattern matches its message, and — when the
include input is non-empty — some non-empty include pattern matches its
message; `matchedIndices` then marks every position of the filtered view
(each surviving record is an include match). -/
theorem C1_include_determines_membership :
    ∀ (matchP : Str → Str → Bool) (st : FilterState) (es : List LogEntry)
      (i : Nat) (e : LogEntry), es.get? i = some e →
      ((i ∈ (applyFilters matchP st es).1 ↔ keepEntry matchP st e = true)
        ∧ (applyFilters matchP st es).2
            = (if st.includeValue.isEmpty then []
               else List.range (es.filter (keepEntry matchP st)).length)) := by
  intro matchP st es i e hget
  refine ⟨applyFilters_mem_iff matchP st es i e hget, ?_⟩
  rw [applyFilters_spec]

/-- C1 witness: a record whose message matches the include pattern is kept
and its index appears in the filtered view. -/
theorem C1_include_determines_membership_witness :
    1 ∈ (applyFilters (matchesPatternSubstr false)
      { showDebug := true, showInfo := true, showWarn := true, showError := true,
        includeValue := "ERROR".data, excludeValue := [] }
      [{ Message := "INFO: x".data, Level := INFO },
       { Message := "ERROR: y".data, Level := ERROR }]).1 :=
  ((C1_include_determines_membership (matchesPatternSubstr false)
      { showDebug := true, showInfo := true, showWarn := true, showError := true,
        includeValue := "ERROR".data, excludeValue := [] }
      [{ Message := "INFO: x".data, Level := INFO },
       { Message := "ERROR: y".data, Level := ERROR }]
      1 { Message := "ERROR: y".data, Level := ERROR } rfl).1).mpr (by decide)

/-- C1 is false as the spec states it: with records INFO:"a", ERROR:"b",
WARN:"c", ERROR:"d", all levels enabled, include pattern "ERROR" and no
exclude patterns, record 0 has its level in the mask and matches no exclude
pattern, yet the rebuilt FilteredView is empty — include patterns filter,
they do not merely populate MatchIndex. -/
theorem C1_counterexample :
    shouldShowLevel
        { showDebug := true, showInfo := true, showWarn := true, showError := true,
          includeValue := "ERROR".data, excludeValue := [] } INFO = true
      ∧ ((splitComma ([] : Str)).map trimSpace).all (fun pat => pat.isEmpty) = true
      ∧ (applyFilters (matchesPatternSubstr false)
          { showDebug := true, showInfo := true, showWarn := true, showError := true,
            includeValue := "ERROR".data, excludeValue := [] }
          [{ Message := "a".data, Level := INFO }, { Message := "b".data, Level := ERROR },
           { Message := "c".data, Level := WARN }, { Message := "d".data, Level := ERROR }]).1
          = [] := by
  refine ⟨rfl, rfl, ?_⟩
  decide

/-- C7: if any non-empty exclude pattern matches a record's message, its
index is absent from FilteredView after a rebuild, whatever the include
patterns say. -/
theorem C7_exclude_dominates :
    ∀ (matchP : Str → Str → Bool) (st : FilterState) (es : List LogEntry)
      (i : Nat) (e : LogEntry), es.get? i = some e →
      (∃ pat ∈ (splitComma st.excludeValue).map trimSpace,
          pat.isEmpty = false ∧ matchP e.Message pat = true) →
      i ∉ (applyFilters matchP st es).1 := by
  intro matchP st es i e hget hexcl hmem
  have hkeep := (applyFilters_mem_iff matchP st es i e hget).mp hmem
  obtain ⟨pat, hpat, hne, hm⟩ := hexcl
  have hany : ((splitComma st.excludeValue).map trimSpace).any
      (fun pat => !pat.isEmpty && matchP e.Message pat) = true := by
    rw [List.any_eq_true]
    exact ⟨pat, hpat, by simp [hne, hm]⟩
  simp [keepEntry, hany] at hkeep

/-- C7 witness: with include "b" and exclude "b", the record with message
"b" is excluded from the filtered view. -/
theorem C7_exclude_dominates_witness :
    1 ∉ (applyFilters (matchesPatternSubstr false)
      { showDebug := true, showInfo := true, showWarn := true, showError := true,
        includeValue := "b".data, excludeValue := "b".data }
      [{ Message := "a".data, Level := INFO }, { Message := "b".data, Level := ERROR },
       { Message := "c".data, Level := WARN }, { Message := "d".data, Level := ERROR }]).1 :=
  C7_exclude_dominates (matchesPatternSubstr false)
    { showDebug := true, showInfo := true, showWarn := true, showError := true,
      includeValue := "b".data, excludeValue := "b".data }
    [{ Message := "a".data, Level := INFO }, { Message := "b".data, Level := ERROR },
     { Message := "c".data, Level := WARN }, { Message := "d".data, Level := ERROR }]
    1 { Message := "b".data, Level := ERROR } rfl
    ⟨"b".data, by decide, by decide, by decide⟩

theorem otlpSetField_isSome (o : OTLPLog) (kv : Str × Json) :
    (otlpSetField o kv).isSome = otlpFieldOk kv := by
  unfold otlpSetField otlpFieldOk
  split_ifs <;> cases kv.snd <;> simp <;> split_ifs <;>
    simp_all [int64Min, int64Max] <;> omega

theorem foldlM_otlpSetField_isSome :
    ∀ (fs : List (Str × Json)) (o : OTLPLog),
      (fs.foldlM otlpSetField o).isSome = fs.all otlpFieldOk := by
  intro fs
  induction fs with
  | nil => intro o; rfl
  | cons kv fs ih =>
    intro o
    simp only [List.foldlM_cons, List.all_cons]
    cases h : otlpSetField o kv with
    | none =>
      have : otlpFieldOk kv = false := by rw [← otlpSetField_isSome o kv, h]; rfl
      simp [this, h]
    | some o' =>
      have : otlpFieldOk kv = true := by rw [← otlpSetField_isSome o kv, h]; rfl
      simp [this, h, ih o']

theorem unmarshalOTLP_isSome (j : Json) :
    (unmarshalOTLP j).isSome = true
      ↔ (j = Json.null ∨ ∃ fs, j = Json.obj fs ∧ fs.all otlpFieldOk = true) := by
  cases j <;> simp [unmarshalOTLP, foldlM_otlpSetField_isSome]

theorem tryParseOTLP_isSome (p : LogParser) (line : Str) :
    (tryParseOTLP p line).isSome = ((p.jdec line).bind unmarshalOTLP).isSome := by
  simp only [tryParseOTLP]
  cases p.jdec line with
  | none => rfl
  | some j =>
    cases h : unmarshalOTLP j with
    | none => simp [h]
    | some o =>
      simp only [h, Option.some_bind, Option.isSome_some]
      split <;> rfl

/-- C2 (amended): the parser classifies a line as OTLP iff the line is valid
JSON that unmarshals into the OTLP struct — top level `null` or an object
whose recognized fields, where present, carry type-compatible values.  No
recognized field is required to be present. -/
theorem C2_otlp_classification :
    ∀ (p : LogParser) (line : Str),
      otlpClassified p line = true
        ↔ ∃ j, p.jdec line = some j
            ∧ (j = Json.null ∨ ∃ fs, j = Json.obj fs ∧ fs.all otlpFieldOk = true) := by
  intro p line
  rw [otlpClassified, tryParseOTLP_isSome]
  cases hj : p.jdec line with
  | none => simp
  | some j =>
    simp only [Option.some_bind, hj]
    rw [unmarshalOTLP_isSome]
    constructor
    · intro h
      exact ⟨j, rfl, h⟩
    · intro ⟨j', hj', h⟩
      injection hj' with hj''
      rw [hj'']
      exact h

/-- C2 is false as stated: the line consisting of the empty JSON object is
valid JSON containing none of the seven recognized fields, yet the parser
takes the OTLP branch for it; the spec-side classifier rejects it. -/
theorem C2_counterexample :
    otlpClassified
        { jdec := fun s => if s = "\x7b\x7d".data then some (Json.obj []) else none,
          marshal := fun _ => [], fmtNano := fun _ => [], now := [],
          tryFormats := fun _ => none } ("\x7b\x7d".data) = true
      ∧ specOTLPClassified
          { jdec := fun s => if s = "\x7b\x7d".data then some (Json.obj []) else none,
            marshal := fun _ => [], fmtNano := fun _ => [], now := [],
            tryFormats := fun _ => none } ("\x7b\x7d".data) = false := by
  constructor <;> decide

/-- C6: the OTLP severity-number bands map to levels as specified, and a zero
(or absent, which Go decodes as zero) severityNumber falls back to the
case-insensitive severityText mapping. -/
theorem C6_severity_mapping :
    ∀ (n : Int) (t : Str),
      (17 ≤ n → otlpSeverityToLevel n t = ERROR)
      ∧ (13 ≤ n ∧ n < 17 → otlpSeverityToLevel n t = WARN)
      ∧ (9 ≤ n ∧ n < 13 → otlpSeverityToLevel n t = INFO)
      ∧ (5 ≤ n ∧ n < 9 → otlpSeverityToLevel n t = DEBUG)
      ∧ (n = 0 → otlpSeverityToLevel n t = severityTextLevel t) := by
  intro n t
  refine ⟨?_, ?_, ?_, ?_, ?_⟩
  · intro h
    rw [otlpSeverityToLevel, if_pos (by omega)]
  · intro h
    rw [otlpSeverityToLevel, if_neg (by omega), if_pos (by omega)]
  · intro h
    rw [otlpSeverityToLevel, if_neg (by omega), if_neg (by omega), if_pos (by omega)]
  · intro h
    rw [otlpSeverityToLevel, if_neg (by omega), if_neg (by omega), if_neg (by omega),
      if_pos (by omega)]
  · intro h
    subst h
    rw [otlpSeverityToLevel, if_neg (by omega), if_neg (by omega), if_neg (by omega),
      if_neg (by omega)]
    rfl

/-- C6 witness: the band boundaries and the text fallback at concrete
inputs. -/
theorem C6_severity_mapping_witness :
    otlpSeverityToLevel 17 [] = ERROR ∧ otlpSeverityToLevel 13 [] = WARN
      ∧ otlpSeverityToLevel 9 [] = INFO ∧ otlpSeverityToLevel 5 [] = DEBUG
      ∧ otlpSeverityToLevel 0 ("fatal".data) = severityTextLevel ("fatal".data) :=
  ⟨(C6_severity_mapping 17 []).1 (by omega),
   (C6_severity_mapping 13 []).2.1 (by omega),
   (C6_severity_mapping 9 []).2.2.1 (by omega),
   (C6_severity_mapping 5 []).2.2.2.1 (by omega),
   (C6_severity_mapping 0 ("fatal".data)).2.2.2.2 rfl⟩

/-- C5 is broken by the code: the OTLP tier's unchecked type assertion
`msg.(string)` panics when `body` is a JSON object whose `stringValue` is not
a string.  For the valid JSON line with body stringValue 123 the parse
reaches the assertion and fails instead of returning a well-formed record. -/
theorem C5_panic_on_nonstring_stringValue :
    ParseLogLine
        { jdec := fun s =>
            if s = "\x7b\"body\":\x7b\"stringValue\":123\x7d\x7d".data
            then some (Json.obj [("body".data, Json.obj [("stringValue".data, Json.num 123)])])
            else none,
          marshal := fun _ => [], fmtNano := fun _ => [],
          now := "2023-12-23 12:00:00".data, tryFormats := fun _ => none }
        ("\x7b\"body\":\x7b\"stringValue\":123\x7d\x7d".data) ("stdin".data)
      = Except.error () := by
  rfl

/-- C4 (amended): when a line reaches the plain-text tier, its message is
exactly the single left-to-right ANSI-strip pass over the line — no more:
one pass can itself leave an `ESC [ params letter` substring behind, and the
OTLP tier stores `body` verbatim, so the universal no-escape-bytes property
does not hold. -/
theorem C4_plaintext_message_stripped :
    ∀ (p : LogParser) (line source : Str),
      tryParseOTLP p line = none →
      tryParseStructured p line = none →
      ParseLogLine p line source = Except.ok (parsePlainText p line source)
        ∧ (parsePlainText p line source).Message = stripANSI line := by
  intro p line source h1 h2
  constructor
  · simp [ParseLogLine, h1, h2]
  · rfl

/-- C4 witness: a plain line parses on the plain-text tier with the stripped
message. -/
theorem C4_plaintext_message_stripped_witness :
    ParseLogLine
        { jdec := fun _ => none, marshal := fun _ => [], fmtNano := fun _ => [],
          now := [], tryFormats := fun _ => none } ("hi".data) []
      = Except.ok (parsePlainText
          { jdec := fun _ => none, marshal := fun _ => [], fmtNano := fun _ => [],
            now := [], tryFormats := fun _ => none } ("hi".data) [])
      ∧ (parsePlainText
          { jdec := fun _ => none, marshal := fun _ => [], fmtNano := fun _ => [],
            now := [], tryFormats := fun _ => none } ("hi".data) []).Message
        = stripANSI ("hi".data) :=
  C4_plaintext_message_stripped
    { jdec := fun _ => none, marshal := fun _ => [], fmtNano := fun _ => [],
      now := [], tryFormats := fun _ => none } ("hi".data) [] rfl
    (by simp [tryParseStructured, railsMatch, commonLogMatch, stripANSI, ansiTail,
      isWsRE, isDurChar, isDigitChar])

/-- C4 is false as stated: on the line `ESC [ ; ESC [ 3 1 m A` the single
replace pass removes only `ESC [ 3 1 m`, leaving the message `ESC [ ; A`,
which is itself a terminal escape sequence of the form ESC [ params
letter. -/
theorem C4_counterexample :
    (ParseLogLine
        { jdec := fun _ => none, marshal := fun _ => [], fmtNano := fun _ => [],
          now := [], tryFormats := fun _ => none }
        ("\x1b[;\x1b[31mA".data) []).map (fun e => containsAnsiSeq e.Message)
      = Except.ok true := by
  simp [ParseLogLine, tryParseOTLP, tryParseStructured, parsePlainText, railsMatch,
    commonLogMatch, extractTimestamp, scanFirst, tryTs1, tryTs2, tryTs3, tryTs4,
    expectN, expectC, expectClock, expectZone, stripANSI, ansiTail, isAnsiParam,
    isAsciiLetter, isWsRE, isDurChar, isDigitChar, isWordChar, containsAnsiSeq,
    startsAnsiSeq, goContains, goToUpper, Except.map]

theorem add_mod_ne (m a d : Nat) (hm : 0 < m) (h1 : 1 ≤ d) (h2 : d < m) :
    (a + d) % m ≠ a % m := by
  intro h
  have hr : a % m < m := Nat.mod_lt _ hm
  rw [Nat.add_mod, Nat.mod_eq_of_lt h2] at h
  have hspan : (a % m + d) < 2 * m := by omega
  by_cases hlt : a % m + d < m
  · rw [Nat.mod_eq_of_lt hlt] at h
    omega
  · rw [Nat.mod_eq_sub_mod (by omega), Nat.mod_eq_of_lt (by omega)] at h
    omega


theorem addAll_state (max : Nat) (hm : 0 < max) :
    ∀ (xs : List LogEntry),
      (addAll (NewCircularBuffer max) xs).maxSize = max
      ∧ (addAll (NewCircularBuffer max) xs).head = xs.length % max
      ∧ (addAll (NewCircularBuffer max) xs).size = min xs.length max
      ∧ (addAll (NewCircularBuffer max) xs).tail
          = (xs.length - min xs.length max) % max
      ∧ ∀ i, i < min xs.length max →
          (addAll (NewCircularBuffer max) xs).entries
              (((xs.length - min xs.length max) % max + i) % max)
            = xs.getD (xs.length - min xs.length max + i) {} := by
  intro xs
  induction xs using List.reverseRecOn with
  | nil =>
    refine ⟨rfl, by simp [addAll, NewCircularBuffer],
      by simp [addAll, NewCircularBuffer], by simp [addAll, NewCircularBuffer], ?_⟩
    intro i hi
    simp at hi
  | append_singleton xs x ih =>
    obtain ⟨ihm, ihh, ihs, iht, ihe⟩ := ih
    have hstep : addAll (NewCircularBuffer max) (xs ++ [x])
        = (addAll (NewCircularBuffer max) xs).Add x := by
      simp [addAll]
    set b := addAll (NewCircularBuffer max) xs with hb
    set n := xs.length with hn
    have hlen : (xs ++ [x]).length = n + 1 := by simp [hn]
    by_cases hlt : n < max
    · have hminn : min n max = n := by omega
      have hminn1 : min (n + 1) max = n + 1 := by omega
      have hsz : b.size < b.maxSize := by rw [ihs, ihm]; omega
      have hAdd : b.Add x = { b with
          entries := fun s => if s = b.head then x else b.entries s,
          head := (b.head + 1) % b.maxSize, size := b.size + 1 } := by
        rw [CircularBuffer.Add, if_pos hsz]
      rw [hstep, hAdd, hlen, hminn1]
      refine ⟨ihm, ?_, ?_, ?_, ?_⟩
      · simp only [ihm, ihh, Nat.mod_add_mod]
      · simp only [ihs, hminn]
      · simp only [iht, hminn]
        simp
      · intro i hi
        have h2 : n + 1 - (n + 1) = 0 := by omega
        simp only [h2, Nat.zero_mod, Nat.zero_add]
        have hilt : i % max = i := Nat.mod_eq_of_lt (by omega)
        rw [hilt]
        have hhead : b.head = n := by rw [ihh]; exact Nat.mod_eq_of_lt hlt
        by_cases hieq : i = n
        · subst hieq
          simp only [hhead, if_pos rfl]
          rw [List.getD_eq_getD_get?, List.get?_append_right (by omega)]
          simp [hn]
        · simp only [hhead, if_neg hieq]
          have hi2 : i < min n max := by omega
          have hinv := ihe i hi2
          have h3 : n - min n max = 0 := by omega
          simp only [h3, Nat.zero_mod, Nat.zero_add, hilt] at hinv
          rw [hinv, List.getD_eq_getD_get?, List.getD_eq_getD_get?,
            List.get?_append (by omega)]
    · have hge : max ≤ n := by omega
      have hminn : min n max = max := by omega
      have hminn1 : min (n + 1) max = max := by omega
      have hsz : ¬ b.size < b.maxSize := by rw [ihs, ihm]; omega
      have hAdd : b.Add x = { b with
          entries := fun s => if s = b.head then x else b.entries s,
          head := (b.head + 1) % b.maxSize,
          tail := (b.tail + 1) % b.maxSize } := by
        rw [CircularBuffer.Add, if_neg hsz]
      rw [hstep, hAdd, hlen, hminn1]
      refine ⟨ihm, ?_, ?_, ?_, ?_⟩
      · simp only [ihm, ihh, Nat.mod_add_mod]
      · simp only [ihs, hminn1, hminn]
      · simp only [ihm, iht, hminn, Nat.mod_add_mod]
        congr 1
        omega
      · intro i hi
        have hslot : ((n + 1 - max) % max + i) % max = ((n - max) + (1 + i)) % max := by
          rw [Nat.mod_add_mod]
          congr 1
          omega
        simp only [hslot]
        by_cases hieq : i = max - 1
        · subst hieq
          have harith : (n - max) + (1 + (max - 1)) = n := by omega
          rw [harith]
          have hhead : b.head = n % max := ihh
          simp only [← hhead, if_pos rfl]
          have hidx : n + 1 - max + (max - 1) = n := by omega
          rw [hidx, List.getD_eq_getD_get?, List.get?_append_right (by omega)]
          simp [hn]
        · have hne : ((n - max) + (1 + i)) % max ≠ b.head := by
            rw [ihh, Nat.mod_eq_sub_mod hge]
            exact add_mod_ne max (n - max) (1 + i) hm (by omega) (by omega)
          simp only [if_neg hne]
          have hi2 : i + 1 < min n max := by omega
          have hinv := ihe (i + 1) hi2
          have hslot2 : ((n - min n max) % max + (i + 1)) % max
              = ((n - max) + (1 + i)) % max := by
            rw [hminn, Nat.mod_add_mod]
            congr 1
            omega
          rw [hslot2] at hinv
          rw [hinv]
          have hidx : n - min n max + (i + 1) = n + 1 - max + i := by omega
          rw [hidx, List.getD_eq_getD_get?, List.getD_eq_getD_get?,
            List.get?_append (by omega)]

theorem drop_eq_map_range : ∀ (l : List LogEntry) (k : Nat),
    l.drop k = (List.range (l.length - k)).map (fun i => l.getD (k + i) {}) := by
  intro l
  induction l with
  | nil => intro k; simp
  | cons a l ih =>
    intro k
    cases k with
    | zero =>
      simp only [List.drop_zero, List.length_cons, Nat.sub_zero, List.range_succ_eq_map,
        List.map_cons, List.map_map, Function.comp]
      congr 1
      have h1 : l.drop 0 = (List.range (l.length - 0)).map (fun i => l.getD (0 + i) {}) :=
        ih 0
      simp only [List.drop_zero, Nat.sub_zero] at h1
      conv_lhs => rw [h1]
      apply List.map_congr_left
      intro i hi
      simp [List.getD, List.getElem?_cons_succ, Function.comp]
    | succ k =>
      simp only [List.drop_succ_cons, List.length_cons, Nat.succ_sub_succ]
      rw [ih k]
      apply List.map_congr_left
      intro i hi
      have : k + 1 + i = (k + i) + 1 := by omega
      rw [this]
      simp [List.getD_cons_succ]

/-- C9: for every sequence of Add operations on a circular buffer of
positive capacity, GetAll returns exactly the most recent `maxSize` entries
in ingestion order (oldest evicted first), and never more than `maxSize`
records are retained. -/
theorem C9_stream_eviction :
    ∀ (max : Nat), 0 < max → ∀ (xs : List LogEntry),
      (addAll (NewCircularBuffer max) xs).GetAll = xs.drop (xs.length - max)
        ∧ (addAll (NewCircularBuffer max) xs).GetAll.length ≤ max := by
  intro max hm xs
  obtain ⟨hmx, hh, hs, ht, he⟩ := addAll_state max hm xs
  set b := addAll (NewCircularBuffer max) xs with hb
  have hfirst : b.GetAll = xs.drop (xs.length - max) := by
    rw [CircularBuffer.GetAll]
    by_cases h0 : b.size = 0
    · rw [if_pos h0]
      have hmin0 : min xs.length max = 0 := by rw [← hs, h0]
      have hx0 : xs.length = 0 := by omega
      rw [List.length_eq_zero.mp hx0]
      simp
    · rw [if_neg h0]
      have hks : xs.length - max = xs.length - min xs.length max := by omega
      rw [drop_eq_map_range]
      have hlen2 : xs.length - (xs.length - max) = b.size := by rw [hs]; omega
      rw [hlen2]
      apply List.map_congr_left
      intro i hi
      simp only [List.mem_range] at hi
      have hi2 : i < min xs.length max := by rw [← hs]; exact hi
      have := he i hi2
      rw [ht, hmx, this, hks]
  refine ⟨hfirst, ?_⟩
  rw [hfirst]
  simp only [List.length_drop]
  omega

/-- C9 witness: capacity 2 with three adds keeps the last two entries in
order. -/
theorem C9_stream_eviction_witness :
    (addAll (NewCircularBuffer 2)
        [{ Message := "1".data }, { Message := "2".data }, { Message := "3".data }]).GetAll
      = [{ Message := "2".data }, { Message := "3".data }]
      ∧ (addAll (NewCircularBuffer 2)
          [{ Message := "1".data }, { Message := "2".data }, { Message := "3".data }]).GetAll.length
        ≤ 2 :=
  have h := C9_stream_eviction 2 (by omega)
    [{ Message := "1".data }, { Message := "2".data }, { Message := "3".data }]
  ⟨h.1.trans rfl, h.2⟩

/-- C10: GetLineRange is total over all integer bounds: it behaves exactly as
with start clamped up to 0 and end clamped down to the line count, and
returns the empty list whenever the clamped range is empty (in particular for
negative start, end beyond the table, or start at or past end). -/
theorem C10_getLineRange_clamps :
    ∀ (p : LogParser) (src : Str) (file : List Char) (tbl : List FastLineIndex)
      (cache : Nat → Option LogEntry) (s e : Int),
      GetLineRange p src file tbl cache s e
          = GetLineRange p src file tbl cache (max s 0) (min e (tbl.length : Int))
        ∧ (min e (tbl.length : Int) ≤ max s 0 →
            GetLineRange p src file tbl cache s e = []) := by
  intro p src file tbl cache s e
  have h1 : (if s < 0 then (0 : Int) else s) = max s 0 := by
    rcases le_or_lt 0 s with h | h
    · rw [if_neg (by omega)]; omega
    · rw [if_pos h]; omega
  have h1' : (if max s 0 < 0 then (0 : Int) else max s 0) = max s 0 := by
    rw [if_neg (by omega)]
  have h2 : (if e > (tbl.length : Int) then (tbl.length : Int) else e)
      = min e (tbl.length : Int) := by
    rcases le_or_lt e (tbl.length : Int) with h | h
    · rw [if_neg (by omega)]; omega
    · rw [if_pos (by omega)]; omega
  have h2' : (if min e (tbl.length : Int) > (tbl.length : Int) then (tbl.length : Int)
      else min e (tbl.length : Int)) = min e (tbl.length : Int) := by
    rw [if_neg (by omega)]
  constructor
  · simp only [GetLineRange, h1, h1', h2, h2']
  · intro hle
    simp only [GetLineRange, h1, h2]
    rw [if_pos (by omega)]

/-- C10 witness: a negative start with an empty clamped range yields the
empty list. -/
theorem C10_getLineRange_clamps_witness :
    GetLineRange
        { jdec := fun _ => none, marshal := fun _ => [], fmtNano := fun _ => [],
          now := [], tryFormats := fun _ => none }
        [] ("a\n".data) [⟨0, 2⟩] (fun _ => none) (-5) 0 = [] :=
  (C10_getLineRange_clamps
    { jdec := fun _ => none, marshal := fun _ => [], fmtNano := fun _ => [],
      now := [], tryFormats := fun _ => none }
    [] ("a\n".data) [⟨0, 2⟩] (fun _ => none) (-5) 0).2 (by decide)

theorem chunksToIndexFrom_get? :
    ∀ (cs : List (List Char)) (o i : Nat),
      (chunksToIndexFrom o cs).get? i
        = (cs.get? i).map
            (fun c => FastLineIndex.mk (o + ((cs.take i).map List.length).sum) c.length) := by
  intro cs
  induction cs with
  | nil => intro o i; simp [chunksToIndexFrom]
  | cons c cs ih =>
    intro o i
    cases i with
    | zero => simp [chunksToIndexFrom]
    | succ i =>
      simp only [chunksToIndexFrom, List.get?_cons_succ, List.take_succ_cons,
        List.map_cons, List.sum_cons, ih (o + c.length) i]
      cases cs.get? i <;> simp [Nat.add_assoc]

theorem sum_take_succ_of_get? :
    ∀ (cs : List (List Char)) (i : Nat) (c : List Char), cs.get? i = some c →
      ((cs.take (i + 1)).map List.length).sum
        = ((cs.take i).map List.length).sum + c.length := by
  intro cs i c h
  have hlt : i < cs.length := by
    by_contra hge
    rw [List.get?_eq_none.mpr (by omega)] at h
    exact Option.noConfusion h
  rw [List.take_succ]
  simp only [List.map_append, List.sum_append]
  have h2 : cs[i]? = some c := by rw [← List.get?_eq_getElem?]; exact h
  rw [h2]
  simp

theorem flatten_drop_sum :
    ∀ (cs : List (List Char)) (s : Nat),
      cs.flatten.drop (((cs.take s).map List.length).sum) = (cs.drop s).flatten := by
  intro cs
  induction cs with
  | nil => intro s; simp
  | cons c cs ih =>
    intro s
    cases s with
    | zero => simp
    | succ s =>
      simp only [List.take_succ_cons, List.map_cons, List.sum_cons, List.flatten_cons,
        List.drop_succ_cons]
      rw [← ih s, ← List.drop_drop, List.drop_left]

theorem flatten_take_sum :
    ∀ (cs : List (List Char)) (k : Nat),
      cs.flatten.take (((cs.take k).map List.length).sum) = (cs.take k).flatten := by
  intro cs
  induction cs with
  | nil => intro k; simp
  | cons c cs ih =>
    intro k
    cases k with
    | zero => simp
    | succ k =>
      simp only [List.take_succ_cons, List.map_cons, List.sum_cons, List.flatten_cons]
      rw [List.take_append, ih k]

theorem readAt_chunk :
    ∀ (cs : List (List Char)) (i : Nat) (c : List Char), cs.get? i = some c →
      readAt cs.flatten (((cs.take i).map List.length).sum) c.length = c := by
  intro cs i c h
  have hlt : i < cs.length := by
    by_contra hge
    rw [List.get?_eq_none.mpr (by omega)] at h
    exact Option.noConfusion h
  rw [readAt, flatten_drop_sum]
  have hc : cs[i] = c := by
    have h2 : cs[i]? = some c := by rw [← List.get?_eq_getElem?]; exact h
    rw [List.getElem?_eq_getElem hlt] at h2
    injection h2
  have hdrop : cs.drop i = c :: cs.drop (i + 1) := by
    rw [List.drop_eq_getElem_cons hlt, hc]
  rw [hdrop]
  simp only [List.flatten_cons]
  exact List.take_left c _

theorem takeWhile_nl_free :
    ∀ (content : List Char), (∀ x ∈ content, x ≠ '\n') →
      content.takeWhile (fun c => c ≠ '\n') = content := by
  intro content h
  induction content with
  | nil => rfl
  | cons a rest ih =>
    have ha : a ≠ '\n' := h a (by simp)
    simp only [List.takeWhile_cons]
    rw [if_pos (by simpa using ha)]
    rw [ih (fun x hx => h x (by simp [hx]))]

theorem takeWhile_append_nl :
    ∀ (content rest : List Char), (∀ x ∈ content, x ≠ '\n') →
      (content ++ '\n' :: rest).takeWhile (fun c => c ≠ '\n') = content := by
  intro content rest h
  induction content with
  | nil => simp [List.takeWhile_cons]
  | cons a content' ih =>
    have ha : a ≠ '\n' := h a (by simp)
    simp only [List.cons_append, List.takeWhile_cons]
    rw [if_pos (by simpa using ha), ih (fun x hx => h x (by simp [hx]))]

theorem scannerTokens_step :
    ∀ (content rest : List Char), (∀ x ∈ content, x ≠ '\n') →
      content.length < bufioMaxTokenSize →
      scannerTokens (content ++ '\n' :: rest) = dropCR content :: scannerTokens rest := by
  intro content rest hnl hcap
  have hbuf : ∃ b bs, content ++ '\n' :: rest = b :: bs := by
    cases content with
    | nil => exact ⟨'\n', rest, rfl⟩
    | cons a t => exact ⟨a, t ++ '\n' :: rest, rfl⟩
  obtain ⟨b, bs, hb⟩ := hbuf
  rw [hb]
  simp only [scannerTokens]
  rw [← hb, takeWhile_append_nl content rest hnl]
  have hlen : (content ++ '\n' :: rest).length = content.length + 1 + rest.length := by
    simp; omega
  rw [if_neg (by omega), if_neg (by rw [hlen]; omega)]
  congr 1
  have hdrop : (content ++ '\n' :: rest).drop (content.length + 1) = rest := by
    rw [← List.drop_drop, List.drop_left]
    simp
  rw [hdrop]

theorem scannerTokens_final :
    ∀ (content : List Char), content ≠ [] → (∀ x ∈ content, x ≠ '\n') →
      content.length < bufioMaxTokenSize →
      scannerTokens content = [dropCR content] := by
  intro content hne hnl hcap
  obtain ⟨b, bs, hb⟩ : ∃ b bs, content = b :: bs := by
    cases content with
    | nil => exact absurd rfl hne
    | cons a t => exact ⟨a, t, rfl⟩
  rw [hb]
  simp only [scannerTokens]
  rw [← hb, takeWhile_nl_free content hnl]
  rw [if_neg (by omega), if_pos rfl]

theorem splitAfterNl_fst_ne_nil (b : Char) (rest : Str) :
    (splitAfterNl (b :: rest)).1 ≠ [] := by
  simp only [splitAfterNl]
  by_cases hb : b = '\n' <;> simp [hb]

theorem splitAfterNl_fst_nl :
    ∀ (s : Str) (x : Char), x ∈ (splitAfterNl s).1.dropLast → x ≠ '\n' := by
  intro s
  induction s with
  | nil => intro x hx; simp [splitAfterNl] at hx
  | cons b rest ih =>
    intro x hx
    simp only [splitAfterNl] at hx
    by_cases hb : b = '\n'
    · simp [hb] at hx
    · rw [if_neg hb] at hx
      cases hp : (splitAfterNl rest).1 with
      | nil => rw [hp] at hx; simp at hx
      | cons y ys =>
        rw [hp, List.dropLast_cons₂, List.mem_cons] at hx
        cases hx with
        | inl hxb => rw [hxb]; exact hb
        | inr hxm => exact ih x (by rw [hp]; exact hxm)

theorem splitAfterNl_last_nl :
    ∀ (s : Str), (splitAfterNl s).2 ≠ [] → (splitAfterNl s).1.getLast? = some '\n' := by
  intro s
  induction s with
  | nil => intro h; simp [splitAfterNl] at h
  | cons b rest ih =>
    intro h
    simp only [splitAfterNl] at h ⊢
    by_cases hb : b = '\n'
    · simp [hb]
    · rw [if_neg hb] at h ⊢
      have h2 := ih h
      cases hp : (splitAfterNl rest).1 with
      | nil => rw [hp] at h2; simp at h2
      | cons y ys =>
        rw [hp] at h2
        show (b :: y :: ys).getLast? = some '\n'
        rw [List.getLast?_cons_cons]
        exact h2

theorem lineChunks_mem_wf_aux :
    ∀ (n : Nat) (s : Str), s.length ≤ n →
      ∀ c ∈ lineChunks s, c ≠ [] ∧ ∀ x ∈ c.dropLast, x ≠ '\n' := by
  intro n
  induction n with
  | zero =>
    intro s hle c hc
    cases s with
    | nil => simp [lineChunks] at hc
    | cons b rest => simp at hle
  | succ n ih =>
    intro s hle c hc
    cases s with
    | nil => simp [lineChunks] at hc
    | cons b rest =>
      rw [lineChunks_cons, List.mem_cons] at hc
      cases hc with
      | inl h0 =>
        subst h0
        exact ⟨splitAfterNl_fst_ne_nil b rest, splitAfterNl_fst_nl (b :: rest)⟩
      | inr hmem =>
        have hlt := splitAfterNl_snd_lt b rest
        exact ih _ (by simp at hle hlt ⊢; omega) c hmem

theorem lineChunks_mem_wf (s : Str) :
    ∀ c ∈ lineChunks s, c ≠ [] ∧ ∀ x ∈ c.dropLast, x ≠ '\n' :=
  lineChunks_mem_wf_aux s.length s le_rfl

theorem lineChunks_terminated_aux :
    ∀ (n : Nat) (s : Str), s.length ≤ n →
      ∀ (i : Nat) (c : List Char), (lineChunks s).get? i = some c →
        i + 1 < (lineChunks s).length → c.getLast? = some '\n' := by
  intro n
  induction n with
  | zero =>
    intro s hle i c hc hlen
    cases s with
    | nil => simp [lineChunks] at hc
    | cons b rest => simp at hle
  | succ n ih =>
    intro s hle i c hc hlen
    cases s with
    | nil => simp [lineChunks] at hc
    | cons b rest =>
      rw [lineChunks_cons] at hc hlen
      cases i with
      | zero =>
        simp only [List.get?_cons_zero] at hc
        injection hc with hc
        subst hc
        simp only [List.length_cons] at hlen
        have hne : lineChunks (splitAfterNl (b :: rest)).2 ≠ [] := by
          intro hnil
          rw [hnil] at hlen
          simp at hlen
        have hsne : (splitAfterNl (b :: rest)).2 ≠ [] := by
          intro hnil
          rw [hnil] at hne
          exact hne (by simp [lineChunks])
        exact splitAfterNl_last_nl (b :: rest) hsne
      | succ i =>
        simp only [List.get?_cons_succ, List.length_cons] at hc hlen
        have hlt := splitAfterNl_snd_lt b rest
        exact ih _ (by simp at hle hlt ⊢; omega) i c hc (by omega)

theorem lineChunks_terminated (s : Str) :
    ∀ (i : Nat) (c : List Char), (lineChunks s).get? i = some c →
      i + 1 < (lineChunks s).length → c.getLast? = some '\n' :=
  lineChunks_terminated_aux s.length s le_rfl

theorem eq_dropLast_append_getLast? :
    ∀ (l : List Char) (a : Char), l.getLast? = some a → l = l.dropLast ++ [a] := by
  intro l
  induction l with
  | nil => intro a h; simp at h
  | cons x xs ih =>
    intro a h
    cases xs with
    | nil =>
      simp at h
      subst h
      simp
    | cons y ys =>
      rw [List.getLast?_cons_cons] at h
      rw [List.dropLast_cons₂, List.cons_append]
      congr 1
      exact ih a h

theorem scannerTokens_chunkList :
    ∀ (cs : List (List Char)),
      (∀ c ∈ cs, c ≠ [] ∧ (∀ x ∈ c.dropLast, x ≠ '\n')
        ∧ (stripTrailingNl c).length < bufioMaxTokenSize
        ∧ (stripTrailingNl c).getLast? ≠ some '\r') →
      (∀ (i : Nat) (c : List Char), cs.get? i = some c → i + 1 < cs.length →
        c.getLast? = some '\n') →
      scannerTokens cs.flatten = cs.map stripTrailingNl := by
  intro cs
  induction cs with
  | nil => intro _ _; simp [scannerTokens]
  | cons c cs' ih =>
    intro hwf hterm
    obtain ⟨hne, hdl, hcap, hcr⟩ := hwf c (by simp)
    by_cases hnl : c.getLast? = some '\n'
    · -- chunk terminated by a newline
      have hdecomp := eq_dropLast_append_getLast? c '\n' hnl
      have hstrip : stripTrailingNl c = c.dropLast := by
        rw [stripTrailingNl, if_pos hnl]
      have hflat : (c :: cs').flatten = c.dropLast ++ '\n' :: cs'.flatten := by
        simp only [List.flatten_cons]
        conv_lhs => rw [hdecomp]
        simp
      rw [hflat, scannerTokens_step c.dropLast cs'.flatten hdl (by rw [← hstrip]; exact hcap)]
      have hdropcr : dropCR c.dropLast = c.dropLast := by
        rw [dropCR, if_neg (by rw [← hstrip]; exact hcr)]
      rw [hdropcr]
      rw [ih (fun d hd => hwf d (by simp [hd]))
        (fun i d hd hlen => hterm (i + 1) d (by simpa using hd) (by simp at hlen ⊢; omega))]
      simp only [List.map_cons, hstrip]
    · -- unterminated chunk: necessarily the last one
      have hcs' : cs' = [] := by
        by_contra hnenil
        have hlen : 0 + 1 < (c :: cs').length := by
          cases cs' with
          | nil => exact absurd rfl hnenil
          | cons _ _ => simp
        exact hnl (hterm 0 c (by simp) hlen)
      subst hcs'
      have hstrip : stripTrailingNl c = c := by
        rw [stripTrailingNl, if_neg hnl]
      have hcfree : ∀ x ∈ c, x ≠ '\n' := by
        intro x hx
        cases hl : c.getLast? with
        | none =>
          rw [List.getLast?_eq_none_iff] at hl
          exact absurd hl hne
        | some a =>
          have hdecomp := eq_dropLast_append_getLast? c a hl
          rw [hdecomp, List.mem_append] at hx
          cases hx with
          | inl hx2 => exact hdl x hx2
          | inr hx2 =>
            simp at hx2
            subst hx2
            intro hxa
            rw [hxa] at hl
            exact hnl hl
      simp only [List.flatten_cons, List.flatten_nil, List.append_nil, List.map_cons,
        List.map_nil]
      rw [scannerTokens_final c hne hcfree (by rw [← hstrip]; exact hcap)]
      have hdropcr : dropCR c = c := by
        rw [dropCR, if_neg (by rw [← hstrip]; exact hcr)]
      rw [hdropcr, hstrip]

theorem chunksToIndexFrom_length :
    ∀ (cs : List (List Char)) (o : Nat), (chunksToIndexFrom o cs).length = cs.length := by
  intro cs
  induction cs with
  | nil => intro o; rfl
  | cons c cs ih => intro o; simp [chunksToIndexFrom, ih]

theorem perIndexLine_chunk (cs : List (List Char)) (i : Nat) (c : List Char)
    (h : cs.get? i = some c) :
    perIndexLine cs.flatten ⟨((cs.take i).map List.length).sum, c.length⟩
      = stripTrailingNl c := by
  rw [perIndexLine]
  show stripTrailingNl (readAt cs.flatten (((cs.take i).map List.length).sum) c.length) = _
  rw [readAt_chunk cs i c h]

theorem get?_some_of_lt (cs : List (List Char)) (i : Nat) (h : i < cs.length) :
    cs.get? i = some cs[i] := by
  rw [List.get?_eq_getElem?, List.getElem?_eq_getElem h]

theorem perIndexFetch_range' (p : LogParser) (src : Str) :
    ∀ (cnt : Nat) (cs : List (List Char)) (s : Nat), s + cnt ≤ cs.length →
      perIndexFetch p src cs.flatten (chunksToIndexFrom 0 cs) (List.range' s cnt)
        = ((cs.drop s).take cnt).map (fun c => ParseLogLine p (stripTrailingNl c) src) := by
  intro cnt
  induction cnt with
  | zero => intro cs s hle; simp [perIndexFetch]
  | succ cnt ih =>
    intro cs s hle
    have hs : s < cs.length := by omega
    rw [List.range'_succ]
    have hget : cs.get? s = some cs[s] := get?_some_of_lt cs s hs
    have htbl : (chunksToIndexFrom 0 cs).get? s
        = some ⟨((cs.take s).map List.length).sum, cs[s].length⟩ := by
      rw [chunksToIndexFrom_get?, hget]
      simp
    simp only [perIndexFetch, htbl]
    rw [perIndexLine_chunk cs s cs[s] hget]
    rw [ih cs (s + 1) (by omega)]
    rw [List.drop_eq_getElem_cons hs, List.take_succ_cons, List.map_cons]

theorem range'_head? (s cnt : Nat) (h : 1 ≤ cnt) :
    (List.range' s cnt).head? = some s := by
  cases cnt with
  | zero => omega
  | succ m => rw [List.range'_succ]; rfl

theorem range'_getLast? (s cnt : Nat) (h : 1 ≤ cnt) :
    (List.range' s cnt).getLast? = some (s + cnt - 1) := by
  cases cnt with
  | zero => omega
  | succ m =>
    rw [List.range'_concat, List.getLast?_concat]
    congr 1
    omega

theorem batchedFetch_chunks (p : LogParser) (src : Str) (cs : List (List Char))
    (s cnt : Nat) (hle : s + cnt ≤ cs.length) (h1 : 1 ≤ cnt)
    (hwf : ∀ c ∈ cs, c ≠ [] ∧ ∀ x ∈ c.dropLast, x ≠ '\n')
    (hterm : ∀ (i : Nat) (c : List Char), cs.get? i = some c → i + 1 < cs.length →
        c.getLast? = some '\n')
    (hconds : ∀ (i : Nat) (c : List Char), s ≤ i → i < s + cnt → cs.get? i = some c →
        (stripTrailingNl c).length < bufioMaxTokenSize
          ∧ (stripTrailingNl c).getLast? ≠ some '\r') :
    batchedFetch p src cs.flatten (chunksToIndexFrom 0 cs) (List.range' s cnt)
      = ((cs.drop s).take cnt).map (fun c => ParseLogLine p (stripTrailingNl c) src) := by
  have hs : s < cs.length := by omega
  have hlast : s + cnt - 1 < cs.length := by omega
  have hgs := get?_some_of_lt cs s hs
  have hgl := get?_some_of_lt cs (s + cnt - 1) hlast
  have htbls : (chunksToIndexFrom 0 cs).get? s
      = some ⟨((cs.take s).map List.length).sum, cs[s].length⟩ := by
    rw [chunksToIndexFrom_get?, hgs]; simp
  have htbll : (chunksToIndexFrom 0 cs).get? (s + cnt - 1)
      = some ⟨((cs.take (s + cnt - 1)).map List.length).sum, cs[s + cnt - 1].length⟩ := by
    rw [chunksToIndexFrom_get?, hgl]; simp
  have hsum : ((cs.take (s + cnt - 1)).map List.length).sum + cs[s + cnt - 1].length
      = ((cs.take (s + cnt)).map List.length).sum := by
    have h2 := sum_take_succ_of_get? cs (s + cnt - 1) cs[s + cnt - 1] hgl
    rw [show s + cnt - 1 + 1 = s + cnt by omega] at h2
    omega
  have hsplit : cs.take (s + cnt) = cs.take s ++ (cs.drop s).take cnt := List.take_add cs s cnt
  have hmidsum : ((cs.take (s + cnt)).map List.length).sum
      = ((cs.take s).map List.length).sum + (((cs.drop s).take cnt).map List.length).sum := by
    rw [hsplit]; simp
  have hbuffer : readAt cs.flatten (((cs.take s).map List.length).sum)
      (((cs.take (s + cnt - 1)).map List.length).sum + cs[s + cnt - 1].length
        - ((cs.take s).map List.length).sum)
      = ((cs.drop s).take cnt).flatten := by
    rw [readAt, flatten_drop_sum]
    have hlenarg : ((cs.take (s + cnt - 1)).map List.length).sum + cs[s + cnt - 1].length
        - ((cs.take s).map List.length).sum
        = (((cs.drop s).take cnt).map List.length).sum := by omega
    rw [hlenarg]
    exact flatten_take_sum (cs.drop s) cnt
  have hmemmid : ∀ c ∈ (cs.drop s).take cnt, c ≠ [] ∧ (∀ x ∈ c.dropLast, x ≠ '\n')
      ∧ (stripTrailingNl c).length < bufioMaxTokenSize
      ∧ (stripTrailingNl c).getLast? ≠ some '\r' := by
    intro c hc
    have hmem : c ∈ cs := List.mem_of_mem_drop (List.mem_of_mem_take hc)
    obtain ⟨j, hj⟩ := List.mem_iff_get?.mp hc
    have hjlt : j < cnt := by
      by_contra hge
      rw [List.get?_eq_none.mpr (by simp; omega)] at hj
      exact Option.noConfusion hj
    have hj2 : cs.get? (s + j) = some c := by
      rw [List.get?_take hjlt, List.get?_drop] at hj
      exact hj
    obtain ⟨hcap, hcr⟩ := hconds (s + j) c (by omega) (by omega) hj2
    exact ⟨(hwf c hmem).1, (hwf c hmem).2, hcap, hcr⟩
  have htermmid : ∀ (i : Nat) (c : List Char), ((cs.drop s).take cnt).get? i = some c →
      i + 1 < ((cs.drop s).take cnt).length → c.getLast? = some '\n' := by
    intro i c hci hleni
    have hilt : i < cnt := by
      have := List.length_take cnt (cs.drop s)
      omega
    have hi2 : cs.get? (s + i) = some c := by
      rw [List.get?_take hilt, List.get?_drop] at hci
      exact hci
    have hlen3 : ((cs.drop s).take cnt).length ≤ cnt := by simp
    exact hterm (s + i) c hi2 (by omega)
  have hscan := scannerTokens_chunkList ((cs.drop s).take cnt) hmemmid htermmid
  have hmidlen : (((cs.drop s).take cnt).map stripTrailingNl).length = cnt := by
    simp
    omega
  rw [batchedFetch, range'_head? s cnt h1, range'_getLast? s cnt h1]
  simp only [htbls, htbll]
  rw [hbuffer, hscan, List.length_range']
  rw [List.take_of_length_le (by omega), List.map_map]
  rfl

/-- C8 (amended): the batched-contiguous fetch path and the per-index fetch
path yield the same parsed records for a consecutive in-range request
whenever every requested line, as the per-index path reads it (terminator
stripped), is shorter than the scanner's 64 KiB token limit and does not end
in a carriage return.  Longer lines stop the batched scanner, and a CRLF
line loses its `\r` only on the batched path, so the unamended for-lines-of-
any-length claim fails. -/
theorem C8_batched_equals_perIndex :
    ∀ (p : LogParser) (src : Str) (file : List Char) (s cnt : Nat),
      s + cnt ≤ (IndexFileUltraFast file).length → 1 ≤ cnt →
      (∀ (i : Nat) (e : FastLineIndex), s ≤ i → i < s + cnt →
          (IndexFileUltraFast file).get? i = some e →
          (perIndexLine file e).length < bufioMaxTokenSize
            ∧ (perIndexLine file e).getLast? ≠ some '\r') →
      batchedFetch p src file (IndexFileUltraFast file) (List.range' s cnt)
        = perIndexFetch p src file (IndexFileUltraFast file) (List.range' s cnt) := by
  intro p src file s cnt hle h1 hconds
  have hcs : IndexFileUltraFast file = chunksToIndexFrom 0 (lineChunks file) :=
    IndexFileUltraFast_eq_chunks file
  have hflat : (lineChunks file).flatten = file := lineChunks_flatten file
  set cs := lineChunks file with hcsdef
  rw [hcs] at hle ⊢
  rw [← hflat]
  rw [chunksToIndexFrom_length] at hle
  have hconds2 : ∀ (i : Nat) (c : List Char), s ≤ i → i < s + cnt → cs.get? i = some c →
      (stripTrailingNl c).length < bufioMaxTokenSize
        ∧ (stripTrailingNl c).getLast? ≠ some '\r' := by
    intro i c hi1 hi2 hgc
    have htbl : (chunksToIndexFrom 0 cs).get? i
        = some ⟨((cs.take i).map List.length).sum, c.length⟩ := by
      rw [chunksToIndexFrom_get?, hgc]; simp
    have hline := perIndexLine_chunk cs i c hgc
    have h2 := hconds i ⟨((cs.take i).map List.length).sum, c.length⟩ hi1 hi2
      (by rw [hcs]; exact htbl)
    rw [← hflat, hline] at h2
    exact h2
  rw [batchedFetch_chunks p src cs s cnt (by omega) h1 (lineChunks_mem_wf file)
    (lineChunks_terminated file) hconds2]
  rw [perIndexFetch_range' p src cnt cs s (by omega)]

/-- C8 witness: on a two-line LF file both paths agree. -/
theorem C8_batched_equals_perIndex_witness :
    batchedFetch
        { jdec := fun _ => none, marshal := fun _ => [], fmtNano := fun _ => [],
          now := [], tryFormats := fun _ => none }
        [] ("a\nb\n".data) (IndexFileUltraFast ("a\nb\n".data)) (List.range' 0 2)
      = perIndexFetch
        { jdec := fun _ => none, marshal := fun _ => [], fmtNano := fun _ => [],
          now := [], tryFormats := fun _ => none }
        [] ("a\nb\n".data) (IndexFileUltraFast ("a\nb\n".data)) (List.range' 0 2) := by
  apply C8_batched_equals_perIndex
  · decide
  · omega
  · intro i e hi1 hi2 hget
    obtain ⟨o, l⟩ := e
    interval_cases i <;> simp [IndexFileUltraFast, indexLoop] at hget <;>
      obtain ⟨rfl, rfl⟩ := hget <;> decide

/-- C8 is false as stated: on a file whose first line ends in CRLF, the
batched path's scanner strips the carriage return while the per-index path
keeps it, so the two paths return different records for the same request. -/
theorem C8_counterexample :
    (batchedFetch
        { jdec := fun _ => none, marshal := fun _ => [], fmtNano := fun _ => [],
          now := [], tryFormats := fun _ => none }
        [] ("a\x0d\nb\n".data) (IndexFileUltraFast ("a\x0d\nb\n".data))
        (List.range' 0 2)).map (fun r => r.map (fun en => en.Message))
      = [Except.ok ("a".data), Except.ok ("b".data)]
    ∧ (perIndexFetch
        { jdec := fun _ => none, marshal := fun _ => [], fmtNano := fun _ => [],
          now := [], tryFormats := fun _ => none }
        [] ("a\x0d\nb\n".data) (IndexFileUltraFast ("a\x0d\nb\n".data))
        (List.range' 0 2)).map (fun r => r.map (fun en => en.Message))
      = [Except.ok ("a\x0d".data), Except.ok ("b".data)] := by
  constructor <;>
    simp [batchedFetch, perIndexFetch, IndexFileUltraFast, indexLoop, List.range',
      readAt, scannerTokens, dropCR, stripTrailingNl, perIndexLine, bufioMaxTokenSize,
      ParseLogLine, tryParseOTLP, tryParseStructured, parsePlainText, railsMatch,
      commonLogMatch, extractTimestamp, scanFirst, tryTs1, tryTs2, tryTs3, tryTs4,
      expectN, expectC, expectClock, expectZone, stripANSI, ansiTail, isAnsiParam,
      isAsciiLetter, isWsRE, isDurChar, isDigitChar, isWordChar, goContains, goToUpper,
      Except.map]

/-- C3 witness: the invariants instantiated on a concrete three-line file
(second line adjacency discharged explicitly). -/
theorem C3_index_table_invariants_witness :
    chainedFrom 0 (IndexFileUltraFast ("a\nbb\nc".data))
      ∧ sumLengths (IndexFileUltraFast ("a\nbb\nc".data)) = ("a\nbb\nc".data).length
      ∧ (FastLineIndex.mk 2 3).Offset
          = (FastLineIndex.mk 0 2).Offset + (FastLineIndex.mk 0 2).Length :=
  ⟨(C3_index_table_invariants.1 ("a\nbb\nc".data)).1,
   (C3_index_table_invariants.1 ("a\nbb\nc".data)).2.1,
   (C3_index_table_invariants.1 ("a\nbb\nc".data)).2.2.2 0 ⟨0, 2⟩ ⟨2, 3⟩ rfl rfl⟩
